import Mathlib

/-!
Verification of the MPC addition service core.

The executable definitions in the `Mpc` namespace are shallow embeddings of
the Rust sources (`src/mpc/polynomial.rs`, `src/mpc/mod.rs`,
`src/domains/additions/*`, `src/communication/outbox_dispatcher.rs`,
`src/peer_communication/*`).  Machine integers are embedded as `Nat`/`Int`
with explicit `% 2 ^ w` where wrap-around matters.  Randomness
(`rand::random`) and I/O are made explicit parameters.  Specification-side
objects (polynomials over `ZMod p`) and all theorems follow after the
namespace is closed.
-/

namespace Mpc

/-- Embeds `modulo` from `src/mpc/polynomial.rs` (lines 179-193).
Rust `%` on `i128` is the truncated remainder, i.e. `Int.tmod`.
`a` is an `i128`, `n` a `u64`; the casts `as u64` are exact because every
returned quantity lies in `[0, n]`. -/
def modulo (a : Int) (n : Nat) : Nat :=
  if 0 < a then
    (if a < (n : Int) then a.toNat else (a.tmod n).toNat)
  else if a = 0 then 0
  else ((n : Int) + a.tmod n).toNat

/-- The `while new_r != 0` loop of `modulo_inv` (`src/mpc/polynomial.rs`
lines 161-168) as a function of the loop state.  In the source `r` and
`new_r` start from the nonnegative `n` and `a` and stay nonnegative, so they
are embedded as `Nat`; `q = r / new_r` on nonnegative `i128` agrees with `Nat`
division, and `r - q * new_r = r % new_r`.  The loop terminates because
`new_r` strictly decreases; `fuel` is a structural bound on the number of
iterations (the caller passes `a + 1 ≥` the iteration count, see
`euclidGo_spec`). -/
def euclidGo : Nat → Nat → Nat → Int → Int → Nat × Int
  | 0, r, _, t, _ => (r, t)
  | fuel + 1, r, newR, t, newT =>
    if newR = 0 then (r, t)
    else euclidGo fuel newR (r % newR) newT (t - ((r / newR : Nat) : Int) * newT)

/-- Embeds `modulo_inv` from `src/mpc/polynomial.rs` (lines 153-177).
Initial loop state: `(new_r, r) = (a, n)`, `(new_t, t) = (1, 0)`. -/
def modulo_inv (a n : Nat) : Except String Nat :=
  if a = 0 then .error "0 does not have an index"
  else if a = 1 then .ok 1
  else
    let rt := euclidGo (a + 1) n a 0 1
    if rt.1 ≠ 1 then .error "gcd of input with n is not one, unable to compute the inverse"
    else .ok (modulo rt.2 n)

/-- `u64` subtraction `a - b` as it behaves in release builds: wrap-around
modulo `2 ^ 64`.  Every call site in the source has `b ≤ a < 2 ^ 64`, where
this equals plain subtraction (`u64sub_of_le`). -/
def u64sub (a b : Nat) : Nat := (2 ^ 64 + a - b) % 2 ^ 64

/-- Embeds `struct Polynomial` from `src/mpc/polynomial.rs`: coefficients in
ascending order of degree. -/
structure Polynomial where
  coefficients : List Nat
deriving Repr, DecidableEq

/-- Embeds `Polynomial::new` (lines 10-18): pops trailing zero
coefficients. -/
def Polynomial.new (coefficients : List Nat) : Polynomial :=
  ⟨(coefficients.reverse.dropWhile (· = 0)).reverse⟩

/-- Embeds `Polynomial::evaluate` (lines 20-30): Horner-style accumulation
`result = (result + power_of_x * c) % m`, `power_of_x = power_of_x * point % m`.
The `u128` products never wrap: after the first reduction both factors are
`< 2 ^ 64`, so `wrapping_mul` is exact multiplication. -/
def Polynomial.evaluate (p : Polynomial) (point n : Nat) : Nat :=
  (p.coefficients.foldl
    (fun acc c => ((acc.1 + acc.2 * c) % n, acc.2 * point % n))
    ((0 : Nat), (1 : Nat))).1

/-- Embeds `Polynomial::evaluate_at_zero` (lines 32-37). -/
def Polynomial.evaluate_at_zero (p : Polynomial) : Nat :=
  match p.coefficients with
  | [] => 0
  | c :: _ => c

/-- One iteration of the `for (i, &root) in roots.iter().enumerate()` loop of
`Polynomial::interpolate_from_roots` (lines 129-146): multiply the current
(monic) coefficient vector by `(x - root)`.  The source pushes a `1`, then
updates positions `i..1` downwards with `coeff[j] = coeff[j-1] - root*coeff[j]`
(each using the not-yet-updated values, which is exactly the simultaneous
update below), and finally `coeff[0] *= neg_root`. -/
def mulRootStep (n root : Nat) (coefficients : List Nat) : List Nat :=
  let neg_root := u64sub n root
  match coefficients with
  | [] => []
  | c0 :: _ =>
    (c0 * neg_root % n) ::
      (List.zipWith
        (fun (prev cur : Nat) => modulo ((prev : Int) - (cur : Int) * (root : Int)) n)
        coefficients (coefficients.drop 1) ++ [1])

/-- Embeds `Polynomial::interpolate_from_roots` (lines 118-148). -/
def Polynomial.interpolate_from_roots (roots : List Nat) (n : Nat) : Polynomial :=
  if roots = [] then ⟨[]⟩
  else ⟨roots.foldl (fun coefficients root => mulRootStep n root coefficients) [1]⟩

/-- The inner subtraction loop of `Polynomial::div` (lines 102-108): subtract
`quotient_coefficient * other * x^(quotient_degree - i)` from the remainder.
After the pop, the touched positions `quotient_degree - i + j`,
`j < other_degree`, are exactly the top `other_degree` entries of the
remainder, aligned with `bLow = other.coefficients` minus its last entry. -/
def subtractTop (n q : Nat) (bLow rem : List Nat) : List Nat :=
  rem.take (rem.length - bLow.length) ++
    List.zipWith (fun (c e : Nat) => modulo ((e : Int) - (c : Int) * (q : Int)) n)
      bLow (rem.drop (rem.length - bLow.length))

/-- The `for i in 0..=quotient_degree` loop of `Polynomial::div`
(lines 89-110).  Each step reads the leading remainder coefficient, pops it,
and (when the quotient coefficient is nonzero) subtracts the scaled divisor
from the top of the remainder.  The produced quotient coefficients are written
from the top down, i.e. step `i` yields the coefficient of index
`quotient_degree - i`, hence the `qs ++ [q]`. -/
def divLoop (n invLead : Nat) (bLow : List Nat) : Nat → List Nat → List Nat × List Nat
  | 0, rem => ([], rem)
  | steps + 1, rem =>
    let lead := rem.getLastD 0
    let q := lead * invLead % n
    let rem1 := rem.dropLast
    let rem2 := if q ≠ 0 then subtractTop n q bLow rem1 else rem1
    let qsRem := divLoop n invLead bLow steps rem2
    (qsRem.1 ++ [q], qsRem.2)

/-- Embeds `Polynomial::div` (lines 68-116). -/
def Polynomial.div (self other : Polynomial) (n : Nat) :
    Except String (Polynomial × Polynomial) :=
  if other.coefficients = [] then .error "unable to divide by zero coefficients"
  else if self.coefficients.length < other.coefficients.length then
    .ok (Polynomial.new [], self)
  else do
    let inv ← modulo_inv (other.coefficients.getLastD 0) n
    let qsRem := divLoop n inv other.coefficients.dropLast
      (self.coefficients.length - other.coefficients.length + 1) self.coefficients
    .ok (Polynomial.new qsRem.1, Polynomial.new qsRem.2)

/-- The accumulation `coefficients[i] = (coefficients[i] + c * weight) % n` of
`Polynomial::interpolate` (lines 59-62).  The numerator never has more
coefficients than the accumulator at the call sites (its trimmed length is at
most `points.len()`), so the `[], _ :: _` case is unreachable there. -/
def addScaled (n weight : Nat) : List Nat → List Nat → List Nat
  | coefficients, [] => coefficients
  | [], _ :: _ => []
  | c0 :: coefficients, nc :: numerator =>
    ((c0 + nc * weight) % n) :: addScaled n weight coefficients numerator

/-- The `for (&point, &value) in points.iter().zip(values)` loop of
`Polynomial::interpolate` (lines 49-63).  The divisor
`vec![modulo - point, 1]` uses `u64` subtraction, embedded by `u64sub`. -/
def interpolateGo (n : Nat) (master : Polynomial) :
    List (Nat × Nat) → List Nat → Except String (List Nat)
  | [], coefficients => .ok coefficients
  | (point, value) :: rest, coefficients => do
    let numPair ← master.div ⟨[u64sub n point, 1]⟩ n
    let inv ← modulo_inv (numPair.1.evaluate point n) n
    let weight := value * inv % n
    interpolateGo n master rest (addScaled n weight coefficients numPair.1.coefficients)

/-- Embeds `Polynomial::interpolate` (lines 39-66). -/
def Polynomial.interpolate (points values : List Nat) (n : Nat) :
    Except String Polynomial :=
  if points.length ≠ values.length then
    .error "points and values must have the same length"
  else do
    let master := Polynomial.interpolate_from_roots points n
    let coefficients ← interpolateGo n master (points.zip values)
      (List.replicate points.length 0)
    .ok (Polynomial.new coefficients)

/-- Embeds `struct Share` from `src/mpc/mod.rs` (`point: u8`, `value: u64`). -/
structure Share where
  point : Nat
  value : Nat
deriving Repr, DecidableEq

/-- Embeds `split_secret` from `src/mpc/mod.rs` (lines 10-22) with the random
draws made explicit: `draws` are the successive values of
`rand::random::<u64>()`; the source draws `points.len() - 1` of them and
reduces each `% n`.  The returned association list stands for the `HashMap`
of shares (one entry per point, in the order of `points`). -/
def split_secret (secret : Nat) (points : List Nat) (draws : List Nat) (n : Nat) :
    List (Nat × Nat) :=
  let coefficients := secret :: draws.map (· % n)
  let poly := Polynomial.new coefficients
  points.map (fun point => (point, poly.evaluate point n))

/-- Embeds `recover_secret` from `src/mpc/mod.rs` (lines 24-35). -/
def recover_secret (shares : List Share) (n : Nat) : Except String Nat := do
  let points := shares.map (·.point)
  let values := shares.map (·.value)
  let poly ← Polynomial.interpolate points values n
  .ok poly.evaluate_at_zero

/-- `const PRIME: u64` from `src/domains/additions/mod.rs`. -/
def PRIME : Nat := 1000000007

/-- A `HashMap<u8, u64>` embedded as its canonical extension: an association
list with strictly increasing keys (`Kmap.WF`).  Insertion overwrites an
existing binding, exactly like `HashMap::insert`. -/
abbrev Kmap := List (Nat × Nat)

/-- Sorted insert-or-overwrite. -/
def Kmap.insert : Kmap → Nat → Nat → Kmap
  | [], k, v => [(k, v)]
  | (k', v') :: rest, k, v =>
    if k < k' then (k, v) :: (k', v') :: rest
    else if k = k' then (k, v) :: rest
    else (k', v') :: Kmap.insert rest k v

/-- `HashMap::get`. -/
def Kmap.lookup (m : Kmap) (k : Nat) : Option Nat :=
  (m.find? (fun p => p.1 == k)).map (·.2)

/-- The `for (peer_id, share) in &received { map.insert(...) }` merge loops. -/
def Kmap.merge (m adds : Kmap) : Kmap :=
  adds.foldl (fun acc p => acc.insert p.1 p.2) m

/-- `HashMap::len`. -/
def Kmap.size (m : Kmap) : Nat := m.length

/-- `map.values().sum()`. -/
def Kmap.valuesSum (m : Kmap) : Nat := (m.map (·.2)).sum

/-- Well-formedness: strictly increasing keys (canonical representative). -/
def Kmap.WF (m : Kmap) : Prop := m.Pairwise (fun a b => a.1 < b.1)

instance (m : Kmap) : Decidable m.WF := by
  unfold Kmap.WF; infer_instance

/-- Embeds `enum AdditionProcessState` from `src/domains/additions/mod.rs`
(lines 24-29). -/
inductive AdditionProcessState
  | awaitingPeerShares
  | awaitingPeerSharesSum (shares_sum : Nat)
  | completed (shares_sum : Nat) (final_sum : Nat)
deriving Repr, DecidableEq

/-- Embeds `struct AdditionProcess` from `src/domains/additions/mod.rs`
(lines 12-22); the `Uuid` is abstracted as a `Nat`. -/
structure AdditionProcess where
  id : Nat
  input : Nat
  own_share : Nat
  shares_to_send : Kmap
  received_shares : Kmap
  received_shares_sums : Kmap
  state : AdditionProcessState
deriving Repr, DecidableEq

/-- Embeds `struct ReceiveSharesRequest` (lines 68-75). -/
structure ReceiveSharesRequest where
  process_id : Nat
  received_shares : Kmap
  computed_shares_sum : Option Nat
deriving Repr, DecidableEq

/-- Embeds `ReceiveSharesRequestError::InvalidState`; the `Unknown` variant is
never produced by `ReceiveSharesRequest::new`. -/
inductive ReceiveSharesRequestError
  | invalidState
deriving Repr, DecidableEq

/-- Embeds `ReceiveSharesRequest::new` (`src/domains/additions/mod.rs`,
lines 85-117).  `wrapping_add` on `u128` is `% 2 ^ 128`; the iterator sum of
at most 256 `u64` values cannot overflow a `u128`, so it is a plain sum;
`rem_euclid` on unsigned values is `%`. -/
def ReceiveSharesRequest.new (process : AdditionProcess) (received_shares : Kmap)
    (peers_count : Nat) : Except ReceiveSharesRequestError ReceiveSharesRequest :=
  if process.state ≠ .awaitingPeerShares then .error .invalidState
  else
    let all_received_shares := process.received_shares.merge received_shares
    if all_received_shares.size < peers_count then
      .ok ⟨process.id, all_received_shares, none⟩
    else
      let computed_shares_sum :=
        (all_received_shares.valuesSum + process.own_share) % 2 ^ 128 % PRIME
      .ok ⟨process.id, all_received_shares, some computed_shares_sum⟩

/-- Embeds the update performed by the repository's `receive_shares`
(`src/domains/additions/repository.rs`, lines 111-145) on the targeted
process: reject wrong states, merge the request's shares, and, when the
request carries a computed shares sum, move to the awaiting-shares-sums state
(whose `received_shares_sums` starts out as a fresh empty map in the source). -/
def receive_shares (process : AdditionProcess) (request : ReceiveSharesRequest) :
    Except String AdditionProcess :=
  match process.state with
  | .awaitingPeerShares =>
    let updated := { process with
      received_shares := process.received_shares.merge request.received_shares }
    match request.computed_shares_sum with
    | some shares_sum =>
      .ok { updated with
        state := .awaitingPeerSharesSum shares_sum, received_shares_sums := [] }
    | none => .ok updated
  | _ => .error "Process is not in a state to receive shares"

/-- `apply_received_shares`: request construction followed by the repository
update, as performed by `AdditionProcessOrchestrator::poll_for_peer_shares`
(`src/domains/additions/orchestrator.rs`, lines 163-177). -/
def applyReceivedShares (process : AdditionProcess) (additions : Kmap)
    (peers_count : Nat) : Except String AdditionProcess :=
  match ReceiveSharesRequest.new process additions peers_count with
  | .error _ => .error "invalid process state when creating receive shares request"
  | .ok request => receive_shares process request

/-- One `apply_received_shares` call as a state transformer: a failed call
returns an error to the caller and leaves the stored process unchanged. -/
def applyStep (peers_count : Nat) (process : AdditionProcess) (additions : Kmap) :
    AdditionProcess :=
  match applyReceivedShares process additions peers_count with
  | .ok updated => updated
  | .error _ => process

/-- Embeds `struct ReceiveSharesSumsRequest` (lines 123-129). -/
structure ReceiveSharesSumsRequest where
  process_id : Nat
  received_shares_sums : Kmap
  final_sum : Option Nat
deriving Repr, DecidableEq

/-- Embeds `ReceiveSharesSumsRequest::new` (`src/domains/additions/mod.rs`,
lines 139-180).  Note: the source pushes
`Share { point: own_peer_id, value: process.own_share }` as the node's own
coordinate (line 163-166) — `own_share`, not the `shares_sum` stored in the
`AwaitingPeerSharesSum` state. -/
def ReceiveSharesSumsRequest.new (process : AdditionProcess)
    (received_shares_sums : Kmap) (own_peer_id peers_count : Nat) :
    Except String ReceiveSharesSumsRequest :=
  match process.state with
  | .awaitingPeerSharesSum _ =>
    let all := process.received_shares_sums.merge received_shares_sums
    if all.size < peers_count then .ok ⟨process.id, all, none⟩
    else do
      let coords := Share.mk own_peer_id process.own_share ::
        all.map (fun p => Share.mk p.1 p.2)
      let final_sum ← recover_secret coords PRIME
      .ok ⟨process.id, all, some final_sum⟩
  | _ => .error "process is not ready for shares sums reception"

/-- Embeds the repository's `receive_shares_sums`
(`src/domains/additions/repository.rs`, lines 147-184) on the targeted
process. -/
def receive_shares_sums (process : AdditionProcess)
    (request : ReceiveSharesSumsRequest) : Except String AdditionProcess :=
  match process.state with
  | .awaitingPeerSharesSum shares_sum =>
    let updated := { process with
      received_shares_sums :=
        process.received_shares_sums.merge request.received_shares_sums }
    match request.final_sum with
    | some final_sum => .ok { updated with state := .completed shares_sum final_sum }
    | none => .ok updated
  | _ => .error "Process is not in a state to receive shares sums"

/-- `apply_received_shares_sums`: request construction followed by the
repository update (`orchestrator.rs`, lines 214-231). -/
def applyReceivedSharesSums (process : AdditionProcess) (additions : Kmap)
    (own_peer_id peers_count : Nat) : Except String AdditionProcess :=
  (ReceiveSharesSumsRequest.new process additions own_peer_id peers_count).bind
    (receive_shares_sums process)

/-- Embeds `struct OutboxItem` (`src/peer_communication/outbox_repository.rs`,
lines 52-59) restricted to the fields the attempts invariant speaks about;
the `Uuid` is a `Nat`, the envelope and timestamps are not modelled
(readiness is absorbed into the `idle` dispatch outcome). -/
structure OutboxItem where
  id : Nat
  attempts : Nat
deriving Repr, DecidableEq

/-- The fate of an outbox item during one `poll_and_dispatch` round:
delivered (`dispatch` returned Ok), failed (`dispatch` returned Err), or not
part of the polled batch. -/
inductive DispatchOutcome
  | success
  | failed
  | idle
deriving Repr, DecidableEq

/-- One `poll_and_dispatch` round (`src/communication/outbox_dispatcher.rs`,
lines 42-102) acting on the repository contents: successes are dequeued,
failures with `attempts >= 5` are dequeued (abandoned), failures with
`attempts < 5` are re-enqueued with `attempts += 1`
(`re_enqueue_envelopes`, `outbox_repository.rs` lines 105-125). -/
def dispatchStep (s : List OutboxItem) (f : OutboxItem → DispatchOutcome) :
    List OutboxItem :=
  s.filterMap (fun item =>
    match f item with
    | .success => none
    | .idle => some item
    | .failed =>
      if 5 ≤ item.attempts then none
      else some { item with attempts := item.attempts + 1 })

/-- Reachable outbox repository states: starting empty, items are enqueued
with `attempts = 0` and fresh ids (`enqueue_envelopes`,
`outbox_repository.rs` lines 77-103, assigns fresh UUIDs), and the dispatcher
runs `poll_and_dispatch` rounds. -/
inductive OutboxReach : List OutboxItem → Prop
  | init : OutboxReach []
  | enqueue {s : List OutboxItem} (new : List OutboxItem) :
      OutboxReach s →
      (∀ i ∈ new, i.attempts = 0) →
      (∀ i ∈ new, ∀ j ∈ s, i.id ≠ j.id) →
      (new.map OutboxItem.id).Nodup →
      OutboxReach (s ++ new)
  | dispatch {s : List OutboxItem} (f : OutboxItem → DispatchOutcome) :
      OutboxReach s → OutboxReach (dispatchStep s f)

/-- The observable result of one outbound HTTP POST. -/
inductive HttpSendResult
  | response (status : Nat)
  | ioError
deriving Repr, DecidableEq

/-- `reqwest::StatusCode::is_success`: `200..=299`. -/
def isSuccessStatus (status : Nat) : Bool := 200 ≤ status && status ≤ 299

/-- Embeds `PeerCommunicationOutboxDispatcher::dispatch`
(`src/communication/outbox_dispatcher.rs`, lines 104-124): a send failure is
an error; a received response is only logged when its status is not 2xx and
the function returns `Ok(())` regardless of the status. -/
def dispatch (result : HttpSendResult) : Except String Unit :=
  match result with
  | .ioError => .error "sending outbox item to peer"
  | .response _ => .ok ()

/-- Embeds `HttpPeerClient::notify_new_process`
(`src/peer_communication/peer_client.rs`, lines 49-72): errors on both a send
failure and a non-2xx status. -/
def notify_new_process (result : HttpSendResult) : Except String Unit :=
  match result with
  | .ioError => .error "notifying peer of new process"
  | .response status =>
    if isSuccessStatus status then .ok ()
    else .error "Failed to notify peer"

/-- The id partition computed by `poll_and_dispatch` (lines 58-73). -/
structure PollPartition where
  success_ids : List Nat
  to_be_retried_ids : List Nat
  to_be_abandoned : List Nat
deriving Repr, DecidableEq

/-- The `for (index, result) in results.into_iter().enumerate()` loop of
`poll_and_dispatch`: `extracts` are the `(id, attempts)` pairs captured before
dispatching, `results` the per-item dispatch results in the same order. -/
def pollPartition (extracts : List (Nat × Nat))
    (results : List (Except String Unit)) : PollPartition :=
  (extracts.zip results).foldl
    (fun acc p =>
      match p.2 with
      | .ok _ => { acc with success_ids := acc.success_ids ++ [p.1.1] }
      | .error _ =>
        if 5 ≤ p.1.2 then
          { acc with to_be_abandoned := acc.to_be_abandoned ++ [p.1.1] }
        else
          { acc with to_be_retried_ids := acc.to_be_retried_ids ++ [p.1.1] })
    ⟨[], [], []⟩

/-- The cumulative union of a sequence of addition maps, later deliveries
overwriting earlier ones (the union `U` of the idempotence claim). -/
def unionAll (ms : List Kmap) : Kmap := ms.foldl Kmap.merge []

/-- Consistency of a pool of addition maps: any two bindings of the same peer
id carry the same share (re-deliveries retransmit the recorded share). -/
def Agrees (pool : List Kmap) : Prop :=
  ∀ m₁ ∈ pool, ∀ m₂ ∈ pool, ∀ pr ∈ m₁, ∀ pr' ∈ m₂,
    pr.1 = pr'.1 → pr.2 = pr'.2

instance (pool : List Kmap) : Decidable (Agrees pool) := by
  unfold Agrees; infer_instance

/-- The explicit outcome of one `apply_received_shares` call on an
awaiting-shares process whose merged received-shares map is `A`. -/
def stepResult (peers_count : Nat) (process : AdditionProcess) (A : Kmap) :
    AdditionProcess :=
  if A.size < peers_count then { process with received_shares := A }
  else { process with
    received_shares := A,
    received_shares_sums := [],
    state := .awaitingPeerSharesSum
      ((A.valuesSum + process.own_share) % 2 ^ 128 % PRIME) }

end Mpc

/-! ## Specification-side objects

`toPoly p l` is the polynomial over `ZMod p` denoted by the little-endian
coefficient list `l`; the theorems below relate the executable embeddings to
it. -/

instance {ε α : Type} [DecidableEq ε] [DecidableEq α] : DecidableEq (Except ε α) :=
  fun a b =>
    match a, b with
    | .ok x, .ok y =>
      if h : x = y then .isTrue (by rw [h]) else .isFalse (by simp [h])
    | .error x, .error y =>
      if h : x = y then .isTrue (by rw [h]) else .isFalse (by simp [h])
    | .ok _, .error _ => .isFalse (by simp)
    | .error _, .ok _ => .isFalse (by simp)

/-- The polynomial over `ZMod p` with little-endian coefficient list `l`. -/
noncomputable def toPoly (p : Nat) : List Nat → Polynomial (ZMod p)
  | [] => 0
  | c :: cs => Polynomial.C (c : ZMod p) + Polynomial.X * toPoly p cs

@[simp] theorem toPoly_nil (p : Nat) : toPoly p [] = 0 := by
  simp [toPoly]

theorem toPoly_cons (p : Nat) (c : Nat) (cs : List Nat) :
    toPoly p (c :: cs) = Polynomial.C (c : ZMod p) + Polynomial.X * toPoly p cs := by
  simp [toPoly]

theorem toPoly_append (p : Nat) (l₁ l₂ : List Nat) :
    toPoly p (l₁ ++ l₂) = toPoly p l₁ + Polynomial.X ^ l₁.length * toPoly p l₂ := by
  induction l₁ with
  | nil => simp
  | cons c cs ih =>
    simp only [List.cons_append, toPoly_cons, ih, List.length_cons, pow_succ]
    ring

theorem toPoly_concat (p : Nat) (l : List Nat) (c : Nat) :
    toPoly p (l ++ [c]) =
      toPoly p l + Polynomial.C (c : ZMod p) * Polynomial.X ^ l.length := by
  rw [toPoly_append]
  simp [toPoly_cons]
  ring

@[simp] theorem toPoly_replicate_zero (p k : Nat) :
    toPoly p (List.replicate k 0) = 0 := by
  induction k with
  | zero => rfl
  | succ k ih => simp [List.replicate_succ, toPoly_cons, ih]

/-- `Int.tmod` on a negative dividend and a natural divisor, by definition. -/
theorem tmod_negSucc (m k : Nat) :
    (Int.negSucc m).tmod (k : Int) = -(((m + 1) % k : Nat) : Int) := rfl

theorem exists_negSucc_of_neg {a : Int} (h : a < 0) : ∃ m, a = Int.negSucc m := by
  cases a with
  | ofNat k =>
    rw [Int.ofNat_eq_coe] at h
    omega
  | negSucc m => exact ⟨m, rfl⟩

/-- `Int.tmod` by a positive natural divisor lies in `(-n, n)` and keeps the
dividend's sign. -/
theorem tmod_bounds (a : Int) (n : Nat) (hn : 0 < n) :
    (0 ≤ a → 0 ≤ a.tmod n ∧ a.tmod n < n) ∧
    (a < 0 → -(n : Int) < a.tmod n ∧ a.tmod n ≤ 0) := by
  constructor
  · intro h0
    refine ⟨Int.tmod_nonneg _ h0, ?_⟩
    rw [Int.tmod_eq_emod h0 (Int.natCast_nonneg n)]
    exact Int.emod_lt_of_pos a (by exact_mod_cast hn)
  · intro hneg
    obtain ⟨m, rfl⟩ := exists_negSucc_of_neg hneg
    rw [tmod_negSucc]
    have : (m + 1) % n < n := Nat.mod_lt _ hn
    omega

/-- `Int.tmod` is congruent to the dividend: `a.tmod n = a - n * (a.tdiv n)`. -/
theorem tmod_sub_eq (a : Int) (n : Nat) :
    a.tmod n = a - (n : Int) * a.tdiv n := by
  have := Int.tmod_add_tdiv a (n : Int)
  omega

theorem sub_mul_emod_self (a t : Int) (n : Nat) :
    (a - (n : Int) * t) % (n : Int) = a % (n : Int) := by
  have h : a - (n : Int) * t = a + (n : Int) * (-t) := by ring
  rw [h, Int.add_mul_emod_self_left]

/-- `Mpc.modulo` never exceeds `n`. -/
theorem modulo_le (a : Int) (n : Nat) (hn : 0 < n) : Mpc.modulo a n ≤ n := by
  have hb := tmod_bounds a n hn
  unfold Mpc.modulo
  split_ifs with h1 h2 h3
  · omega
  · have := (hb.1 (le_of_lt h1)).2
    omega
  · omega
  · have := (hb.2 (by omega)).1
    have := (hb.2 (by omega)).2
    omega

/-- `Mpc.modulo a n` is congruent to `a` modulo `n` (as integers, with the
mathematical `%`). -/
theorem modulo_emod (a : Int) (n : Nat) (hn : 0 < n) :
    ((Mpc.modulo a n : Nat) : Int) % (n : Int) = a % (n : Int) := by
  have hb := tmod_bounds a n hn
  have htm := tmod_sub_eq a n
  unfold Mpc.modulo
  split_ifs with h1 h2 h3
  · rw [Int.toNat_of_nonneg (le_of_lt h1)]
  · rw [Int.toNat_of_nonneg (Int.tmod_nonneg _ (le_of_lt h1)), htm]
    exact sub_mul_emod_self a (a.tdiv n) n
  · simp [h3]
  · have hneg : a < 0 := by omega
    have h4 := (hb.2 hneg).1
    rw [Int.toNat_of_nonneg (by omega), htm]
    have heq : (n : Int) + (a - (n : Int) * a.tdiv n) =
        a - (n : Int) * (a.tdiv n - 1) := by ring
    rw [heq]
    exact sub_mul_emod_self a (a.tdiv n - 1) n

/-- Cast of `Mpc.modulo` into `ZMod n`. -/
theorem natCast_modulo (a : Int) (n : Nat) (hn : 0 < n) :
    ((Mpc.modulo a n : Nat) : ZMod n) = (a : ZMod n) := by
  have h : ((Mpc.modulo a n : Nat) : Int) % (n : Int) = a % (n : Int) :=
    modulo_emod a n hn
  have hz : (((Mpc.modulo a n : Nat) : Int) : ZMod n) = ((a : Int) : ZMod n) := by
    rw [ZMod.intCast_eq_intCast_iff']
    exact h
  simpa using hz

/-- `Mpc.modulo` is strictly below `n` unless `a` is a negative multiple of
`n`, in which case it returns exactly `n`. -/
theorem modulo_lt (a : Int) (n : Nat) (hn : 0 < n)
    (h : ¬(a < 0 ∧ a.tmod n = 0)) : Mpc.modulo a n < n := by
  have hb := tmod_bounds a n hn
  unfold Mpc.modulo
  split_ifs with h1 h2 h3
  · omega
  · have := (hb.1 (le_of_lt h1)).2
    have := (hb.1 (le_of_lt h1)).1
    omega
  · omega
  · have hneg : a < 0 := by omega
    have h4 := (hb.2 hneg).1
    have h5 := (hb.2 hneg).2
    have h6 : a.tmod n ≠ 0 := fun h0 => h ⟨hneg, h0⟩
    omega

theorem tmod_eq_zero_iff_dvd (a : Int) (n : Nat) (hn : 0 < n) :
    a.tmod n = 0 ↔ (n : Int) ∣ a := by
  have htm := tmod_sub_eq a n
  constructor
  · intro h
    exact ⟨a.tdiv n, by omega⟩
  · rintro ⟨c, rfl⟩
    have hb := tmod_bounds ((n : Int) * c) n hn
    have hd : (n : Int) ∣ ((n : Int) * c).tmod n := by
      have heq : ((n : Int) * c).tmod n =
          (n : Int) * c - (n : Int) * (((n : Int) * c).tdiv n) := htm
      exact heq ▸ Dvd.dvd.sub (Dvd.intro c rfl) (Dvd.intro _ rfl)
    rcases hd with ⟨k, hk⟩
    have hn' : (0 : Int) < n := by exact_mod_cast hn
    have hlow : -(n : Int) < (n : Int) * k := by
      rw [← hk]
      rcases le_or_lt 0 ((n : Int) * c) with h0 | h0
      · have h := (hb.1 h0).1
        omega
      · exact (hb.2 h0).1
    have hup : (n : Int) * k < n := by
      rw [← hk]
      rcases le_or_lt 0 ((n : Int) * c) with h0 | h0
      · exact (hb.1 h0).2
      · have h := (hb.2 h0).2
        omega
    have hk1 : k < 1 :=
      lt_of_mul_lt_mul_left (by rw [mul_one]; exact hup) (le_of_lt hn')
    have hk2 : (-1 : Int) < k :=
      lt_of_mul_lt_mul_left (by rw [mul_neg_one]; omega) (le_of_lt hn')
    have : k = 0 := by omega
    rw [hk, this, mul_zero]

/-- Invariants of the extended-Euclid loop: the first component of the result
is `gcd` of the initial pair, and `n` divides `t * a - r` throughout
(`a` is the value being inverted, `n` the modulus). -/
theorem euclidGo_spec (a n : Nat) :
    ∀ (fuel r newR : Nat) (t newT : Int), newR ≤ fuel →
      ((n : Int) ∣ t * a - r) → ((n : Int) ∣ newT * a - newR) →
      (Mpc.euclidGo fuel r newR t newT).1 = Nat.gcd newR r ∧
      (n : Int) ∣ (Mpc.euclidGo fuel r newR t newT).2 * a -
        (Mpc.euclidGo fuel r newR t newT).1 := by
  intro fuel
  induction fuel with
  | zero =>
    intro r newR t newT hle ht hnt
    have h0 : newR = 0 := Nat.le_zero.mp hle
    subst h0
    simpa [Mpc.euclidGo] using ht
  | succ fuel ih =>
    intro r newR t newT hle ht hnt
    by_cases h0 : newR = 0
    · subst h0
      simpa [Mpc.euclidGo] using ht
    · have hpos : 0 < newR := Nat.pos_of_ne_zero h0
      have hstep : Mpc.euclidGo (fuel + 1) r newR t newT =
          Mpc.euclidGo fuel newR (r % newR) newT
            (t - ((r / newR : Nat) : Int) * newT) := by
        simp [Mpc.euclidGo, h0]
      rw [hstep]
      have hmod : ((r % newR : Nat) : Int) =
          (r : Int) - (newR : Int) * ((r / newR : Nat) : Int) := by
        have h := Nat.div_add_mod r newR
        have hcast : (newR : Int) * ((r / newR : Nat) : Int) +
            ((r % newR : Nat) : Int) = (r : Int) := by exact_mod_cast h
        linarith
      have hlt : r % newR ≤ fuel := by
        have := Nat.mod_lt r hpos
        omega
      have hnt' : (n : Int) ∣ (t - ((r / newR : Nat) : Int) * newT) * a -
          ((r % newR : Nat) : Int) := by
        have heq : (t - ((r / newR : Nat) : Int) * newT) * a -
            ((r % newR : Nat) : Int) =
            (t * a - r) - ((r / newR : Nat) : Int) * (newT * a - newR) := by
          rw [hmod]
          ring
        rw [heq]
        exact ht.sub (Dvd.dvd.mul_left hnt _)
      have := ih newR (r % newR) newT (t - ((r / newR : Nat) : Int) * newT)
        hlt hnt hnt'
      rw [← Nat.gcd_rec newR r] at this
      exact this

/-- `modulo_inv` fails exactly on `a = 0` or `gcd(a, n) ≠ 1`. -/
theorem modulo_inv_error_iff (a n : Nat) :
    (∃ e, Mpc.modulo_inv a n = .error e) ↔ (a = 0 ∨ Nat.gcd a n ≠ 1) := by
  by_cases h0 : a = 0
  · subst h0
    simp [Mpc.modulo_inv]
  · by_cases h1 : a = 1
    · subst h1
      simp [Mpc.modulo_inv, Nat.gcd_one_left]
    · have hspec := euclidGo_spec a n (a + 1) n a 0 1 (by omega)
        (by simp) (by simp)
      have hgcd : (Mpc.euclidGo (a + 1) n a 0 1).1 = Nat.gcd a n := hspec.1
      by_cases hg : Nat.gcd a n = 1
      · simp [Mpc.modulo_inv, h0, h1, hgcd, hg]
      · simp [Mpc.modulo_inv, h0, h1, hgcd, hg]

/-- `modulo_inv` on a unit: success, range (for `n ≥ 2`) and the inverse
property. -/
theorem modulo_inv_ok (a n : Nat) (ha : a ≠ 0) (hg : Nat.gcd a n = 1) :
    ∃ v, Mpc.modulo_inv a n = .ok v ∧ (2 ≤ n → v < n ∧ a * v % n = 1) := by
  by_cases h1 : a = 1
  · refine ⟨1, by simp [Mpc.modulo_inv, h1], fun hn => ⟨by omega, ?_⟩⟩
    subst h1
    simp [Nat.mod_eq_of_lt (by omega : 1 < n)]
  · have hspec := euclidGo_spec a n (a + 1) n a 0 1 (by omega)
      (by simp) (by simp)
    have hgcd1 : (Mpc.euclidGo (a + 1) n a 0 1).1 = 1 := by
      rw [hspec.1]
      exact hg
    have hok : Mpc.modulo_inv a n =
        .ok (Mpc.modulo (Mpc.euclidGo (a + 1) n a 0 1).2 n) := by
      simp [Mpc.modulo_inv, ha, h1, hgcd1]
    refine ⟨_, hok, fun hn => ?_⟩
    have hnpos : 0 < n := by omega
    set t := (Mpc.euclidGo (a + 1) n a 0 1).2 with ht
    have hdvd : (n : Int) ∣ t * a - 1 := by
      have := hspec.2
      rw [hspec.1, hg] at this
      simpa using this
    have hzmod : ((Mpc.modulo t n : Nat) : ZMod n) * (a : ZMod n) = 1 := by
      rw [natCast_modulo t n hnpos]
      have h0 : ((t * a - 1 : Int) : ZMod n) = 0 :=
        (ZMod.intCast_zmod_eq_zero_iff_dvd _ _).mpr hdvd
      push_cast at h0
      have : (t : ZMod n) * (a : ZMod n) = 1 := by
        have := sub_eq_zero.mp h0
        simpa using this
      exact this
    constructor
    · apply modulo_lt t n hnpos
      rintro ⟨htneg, htz⟩
      have hnd : (n : Int) ∣ t := (tmod_eq_zero_iff_dvd t n hnpos).mp htz
      have hta : (n : Int) ∣ t * (a : Int) := Dvd.dvd.mul_right hnd _
      have h1' : (n : Int) ∣ 1 := by
        have hsub := hta.sub hdvd
        simpa using hsub
      have : (n : Int) = 1 ∨ (n : Int) = -1 :=
        Int.isUnit_iff.mp (isUnit_of_dvd_one h1')
      omega
    · have hcast : ((a * Mpc.modulo t n : Nat) : ZMod n) = ((1 : Nat) : ZMod n) := by
        push_cast
        rw [mul_comm]
        simpa using hzmod
      have := (ZMod.natCast_eq_natCast_iff' _ _ _).mp hcast
      simpa [Nat.mod_eq_of_lt (by omega : 1 < n)] using this

/-- `modulo_inv` over a prime field, phrased in `ZMod p`. -/
theorem modulo_inv_prime (p : Nat) (hp : p.Prime) (a : Nat)
    (ha : a ≠ 0) (hlt : a < p) :
    ∃ v, Mpc.modulo_inv a p = .ok v ∧ v < p ∧
      (v : ZMod p) * (a : ZMod p) = 1 := by
  have hg : Nat.gcd a p = 1 := by
    have : ¬ p ∣ a := fun hdvd =>
      absurd (Nat.le_of_dvd (Nat.pos_of_ne_zero ha) hdvd) (by omega)
    exact Nat.Coprime.gcd_eq_one ((Nat.Prime.coprime_iff_not_dvd hp).mpr this).symm
  obtain ⟨v, hok, hprop⟩ := modulo_inv_ok a p ha hg
  have h2 := hprop hp.two_le
  refine ⟨v, hok, h2.1, ?_⟩
  have hcast : ((a * v : Nat) : ZMod p) = 1 := by
    calc ((a * v : Nat) : ZMod p)
        = (((a * v) % p : Nat) : ZMod p) := (ZMod.natCast_mod _ _).symm
      _ = ((1 : Nat) : ZMod p) := by rw [h2.2]
      _ = 1 := Nat.cast_one
  push_cast at hcast
  rw [mul_comm]
  exact hcast

/-- C10 counterexample: `modulo(-5, 5) = 5`, which is not in `[0, 5)`, so the
claim that `modulo(a, n)` always returns a value in `[0, n)` is false. -/
theorem modulo_range_counterexample :
    Mpc.modulo (-5) 5 = 5 ∧ ¬ Mpc.modulo (-5) 5 < 5 := by decide

/-- C10 (amended): for every `i128` value `a` and modulus `n > 0`,
`modulo(a, n)` returns a value congruent to `a` modulo `n` lying in `[0, n]`;
it lies in `[0, n)` except when `a` is a negative multiple of `n`, where it
returns exactly `n`. -/
theorem modulo_amended_spec (a : Int) (n : Nat) (hn : 0 < n) :
    Mpc.modulo a n ≤ n ∧
    ((Mpc.modulo a n : Nat) : Int) % (n : Int) = a % (n : Int) ∧
    (¬(a < 0 ∧ (n : Int) ∣ a) → Mpc.modulo a n < n) := by
  refine ⟨modulo_le a n hn, modulo_emod a n hn, fun h => ?_⟩
  apply modulo_lt a n hn
  rintro ⟨hneg, htz⟩
  exact h ⟨hneg, (tmod_eq_zero_iff_dvd a n hn).mp htz⟩

theorem modulo_amended_spec_witness :
    Mpc.modulo (-7) 3 ≤ 3 ∧
    ((Mpc.modulo (-7) 3 : Nat) : Int) % (3 : Int) = (-7) % (3 : Int) ∧
    Mpc.modulo (-7) 3 < 3 :=
  ⟨(modulo_amended_spec (-7) 3 (by decide)).1,
   (modulo_amended_spec (-7) 3 (by decide)).2.1,
   (modulo_amended_spec (-7) 3 (by decide)).2.2 (by decide)⟩

/-- C9 counterexample: `modulo_inv(1, 1)` does not fail (`gcd(1,1) = 1`) but
returns `1`, which is not in `[0, 1)`: the claimed return range `[0, n)`
fails at `a = 1, n = 1`. -/
theorem modulo_inv_range_counterexample :
    Mpc.modulo_inv 1 1 = Except.ok 1 ∧ ¬ (1 : Nat) < 1 := by decide

/-- C9 (amended): `modulo_inv(a, n)` fails exactly when `a = 0` or
`gcd(a, n) ≠ 1`; otherwise, whenever `n ≥ 2`, it returns `v ∈ [0, n)` with
`a·v ≡ 1 (mod n)` (for `n ≤ 1` the `a = 1` early return yields `v = 1`,
outside the claimed range).  In particular, for prime `p` and every
`a ∈ [1, p)`, `a · modulo_inv(a, p) ≡ 1 mod p`. -/
theorem modulo_inv_amended_spec :
    (∀ a n : Nat,
      (∃ e, Mpc.modulo_inv a n = .error e) ↔ (a = 0 ∨ Nat.gcd a n ≠ 1)) ∧
    (∀ a n : Nat, a ≠ 0 → Nat.gcd a n = 1 → 2 ≤ n →
      ∃ v, Mpc.modulo_inv a n = .ok v ∧ v < n ∧ a * v % n = 1) ∧
    (∀ p : Nat, p.Prime → ∀ a : Nat, 1 ≤ a → a < p →
      ∃ v, Mpc.modulo_inv a p = .ok v ∧ v < p ∧ a * v % p = 1) := by
  refine ⟨modulo_inv_error_iff, ?_, ?_⟩
  · intro a n ha hg hn
    obtain ⟨v, hok, hprop⟩ := modulo_inv_ok a n ha hg
    exact ⟨v, hok, hprop hn⟩
  · intro p hp a ha hlt
    have hg : Nat.gcd a p = 1 := by
      have hnd : ¬ p ∣ a := fun hdvd =>
        absurd (Nat.le_of_dvd (by omega) hdvd) (by omega)
      exact Nat.Coprime.gcd_eq_one
        ((Nat.Prime.coprime_iff_not_dvd hp).mpr hnd).symm
    obtain ⟨v, hok, hprop⟩ := modulo_inv_ok a p (by omega) hg
    exact ⟨v, hok, hprop hp.two_le⟩

theorem modulo_inv_amended_spec_witness :
    (∃ v, Mpc.modulo_inv 3 10 = .ok v ∧ v < 10 ∧ 3 * v % 10 = 1) ∧
    (∃ v, Mpc.modulo_inv 3 11 = .ok v ∧ v < 11 ∧ 3 * v % 11 = 1) :=
  ⟨modulo_inv_amended_spec.2.1 3 10 (by decide) (by decide) (by decide),
   modulo_inv_amended_spec.2.2 11 (by norm_num) 3 (by decide) (by decide)⟩

/-! ## Polynomial evaluation, trimming, and coefficient-list lemmas -/

theorem evaluate_foldl (p : Nat) (hp : 0 < p) (x : Nat) :
    ∀ (l : List Nat) (a w : Nat),
      (((l.foldl (fun acc c => ((acc.1 + acc.2 * c) % p, acc.2 * x % p))
          (a, w)).1 : Nat) : ZMod p)
        = (a : ZMod p) + (w : ZMod p) * (toPoly p l).eval (x : ZMod p) := by
  intro l
  induction l with
  | nil => simp
  | cons c cs ih =>
    intro a w
    simp only [List.foldl_cons]
    rw [ih]
    push_cast [ZMod.natCast_mod]
    simp only [toPoly_cons, Polynomial.eval_add, Polynomial.eval_C,
      Polynomial.eval_mul, Polynomial.eval_X]
    ring

theorem evaluate_foldl_lt (p : Nat) (hp : 0 < p) (x : Nat) :
    ∀ (l : List Nat) (a w : Nat), a < p →
      (l.foldl (fun acc c => ((acc.1 + acc.2 * c) % p, acc.2 * x % p))
          (a, w)).1 < p := by
  intro l
  induction l with
  | nil => intro a w ha; simpa using ha
  | cons c cs ih =>
    intro a w ha
    simp only [List.foldl_cons]
    exact ih _ _ (Nat.mod_lt _ hp)

/-- `Polynomial::evaluate` computes `toPoly`-evaluation, reduced mod `p`. -/
theorem evaluate_spec (po : Mpc.Polynomial) (x p : Nat) (hp : 0 < p) :
    ((po.evaluate x p : Nat) : ZMod p)
        = (toPoly p po.coefficients).eval (x : ZMod p) ∧
      po.evaluate x p < p := by
  constructor
  · have h := evaluate_foldl p hp x po.coefficients 0 1
    simpa [Mpc.Polynomial.evaluate] using h
  · exact evaluate_foldl_lt p hp x po.coefficients 0 1 hp

theorem new_concat_zero (l : List Nat) :
    Mpc.Polynomial.new (l ++ [0]) = Mpc.Polynomial.new l := by
  simp [Mpc.Polynomial.new, List.reverse_append, List.dropWhile]

theorem new_concat_ne (l : List Nat) (c : Nat) (hc : c ≠ 0) :
    Mpc.Polynomial.new (l ++ [c]) = ⟨l ++ [c]⟩ := by
  simp [Mpc.Polynomial.new, List.reverse_append, List.dropWhile, hc]

/-- Trimming trailing zeros does not change the denoted polynomial. -/
theorem toPoly_new (p : Nat) (l : List Nat) :
    toPoly p (Mpc.Polynomial.new l).coefficients = toPoly p l := by
  induction l using List.reverseRecOn with
  | nil => rfl
  | append_singleton l c ih =>
    by_cases hc : c = 0
    · subst hc
      rw [new_concat_zero, ih, toPoly_concat]
      simp
    · rw [new_concat_ne l c hc]

theorem new_length_le (l : List Nat) :
    (Mpc.Polynomial.new l).coefficients.length ≤ l.length := by
  induction l using List.reverseRecOn with
  | nil => simp [Mpc.Polynomial.new]
  | append_singleton l c ih =>
    by_cases hc : c = 0
    · subst hc
      rw [new_concat_zero]
      simpa [Nat.le_succ] using le_trans ih (by simp)
    · rw [new_concat_ne l c hc]

/-- `toPoly` of the pointwise `a - b*c (mod p)` combination. -/
theorem toPoly_zipWith_modulo (p : Nat) (hp : 0 < p) (c : Nat) :
    ∀ (s t : List Nat), s.length = t.length →
      toPoly p (List.zipWith
          (fun (a b : Nat) => Mpc.modulo ((a : Int) - (b : Int) * (c : Int)) p) s t)
        = toPoly p s - Polynomial.C (c : ZMod p) * toPoly p t := by
  intro s
  induction s with
  | nil =>
    intro t ht
    have : t = [] := List.eq_nil_of_length_eq_zero ht.symm
    simp [this]
  | cons a s ih =>
    intro t ht
    cases t with
    | nil => simp at ht
    | cons b t =>
      simp only [List.zipWith_cons_cons, toPoly_cons]
      rw [ih t (by simpa using ht)]
      rw [natCast_modulo _ p hp]
      push_cast
      simp only [map_sub, map_mul]
      ring

/-- Same as `toPoly_zipWith_modulo` with the zipped lists in the other order
(the shape used by `subtractTop`). -/
theorem toPoly_zipWith_modulo' (p : Nat) (hp : 0 < p) (c : Nat) :
    ∀ (s t : List Nat), s.length = t.length →
      toPoly p (List.zipWith
          (fun (a b : Nat) => Mpc.modulo ((b : Int) - (a : Int) * (c : Int)) p) s t)
        = toPoly p t - Polynomial.C (c : ZMod p) * toPoly p s := by
  intro s
  induction s with
  | nil =>
    intro t ht
    have : t = [] := List.eq_nil_of_length_eq_zero ht.symm
    simp [this]
  | cons a s ih =>
    intro t ht
    cases t with
    | nil => simp at ht
    | cons b t =>
      simp only [List.zipWith_cons_cons, toPoly_cons]
      rw [ih t (by simpa using ht)]
      rw [natCast_modulo _ p hp]
      push_cast
      simp only [map_sub, map_mul]
      ring

theorem dropLast_concat_getLastD :
    ∀ (l : List Nat), l ≠ [] → l.dropLast ++ [l.getLastD 0] = l := by
  intro l
  induction l with
  | nil => intro h; exact absurd rfl h
  | cons a l ih =>
    intro _
    cases l with
    | nil => rfl
    | cons b l =>
      simp only [List.dropLast_cons₂, List.cons_append]
      rw [show (b :: l).getLastD 0 = (a :: b :: l).getLastD 0 from rfl] at ih
      rw [ih (by simp)]

/-! ## Correctness of `Polynomial::div` -/

theorem subtractTop_length (p q : Nat) (bLow rem : List Nat)
    (h : bLow.length ≤ rem.length) :
    (Mpc.subtractTop p q bLow rem).length = rem.length := by
  unfold Mpc.subtractTop
  rw [List.length_append, List.length_take, List.length_zipWith,
    List.length_drop]
  omega

/-- The algebraic effect of `subtractTop`: subtract
`q * x^(rem.length - bLow.length) * bLow`. -/
theorem subtractTop_toPoly (p : Nat) (hp : 0 < p) (q : Nat) (bLow rem : List Nat)
    (h : bLow.length ≤ rem.length) :
    toPoly p (Mpc.subtractTop p q bLow rem) =
      toPoly p rem -
        Polynomial.C (q : ZMod p) * Polynomial.X ^ (rem.length - bLow.length) *
          toPoly p bLow := by
  unfold Mpc.subtractTop
  set k := rem.length - bLow.length with hk
  have hsplit : rem = rem.take k ++ rem.drop k := (List.take_append_drop k rem).symm
  have hlent : (rem.take k).length = k := by
    rw [List.length_take]
    omega
  have hlend : (rem.drop k).length = bLow.length := by
    rw [List.length_drop]
    omega
  rw [toPoly_append, toPoly_zipWith_modulo' p hp q bLow (rem.drop k) hlend.symm]
  conv_rhs => rw [hsplit, toPoly_append]
  rw [hlent]
  ring

/-- Invariant of the `divLoop` recursion: dividing `rem` (of length
`steps + bLow.length`) by `bLow ++ [bLast]` produces a quotient of length
`steps` and a remainder of length `bLow.length` with
`rem = b * quotient + remainder` over `ZMod p`. -/
theorem divLoop_spec (p : Nat) (hp : 0 < p) (invLead bLast : Nat)
    (bLow : List Nat) (hinv : (bLast : ZMod p) * (invLead : ZMod p) = 1) :
    ∀ (steps : Nat) (rem : List Nat), rem.length = steps + bLow.length →
      (Mpc.divLoop p invLead bLow steps rem).1.length = steps ∧
      (Mpc.divLoop p invLead bLow steps rem).2.length = bLow.length ∧
      toPoly p rem =
        toPoly p (bLow ++ [bLast]) *
          toPoly p (Mpc.divLoop p invLead bLow steps rem).1 +
        toPoly p (Mpc.divLoop p invLead bLow steps rem).2 := by
  intro steps
  induction steps with
  | zero =>
    intro rem hlen
    refine ⟨rfl, by simpa using hlen, ?_⟩
    simp [Mpc.divLoop]
  | succ steps ih =>
    intro rem hlen
    have hne : rem ≠ [] := by
      intro h
      rw [h] at hlen
      simp only [List.length_nil] at hlen
      omega
    set lead := rem.getLastD 0 with hlead
    set q := lead * invLead % p with hq
    set rem1 := rem.dropLast with hrem1
    have hlen1 : rem1.length = steps + bLow.length := by
      rw [hrem1, List.length_dropLast]
      omega
    set rem2 := if q ≠ 0 then Mpc.subtractTop p q bLow rem1 else rem1 with hrem2
    have hlen2 : rem2.length = steps + bLow.length := by
      rw [hrem2]
      split
      · rw [subtractTop_length p q bLow rem1 (by omega)]
        exact hlen1
      · exact hlen1
    have hunfold : Mpc.divLoop p invLead bLow (steps + 1) rem =
        ((Mpc.divLoop p invLead bLow steps rem2).1 ++ [q],
         (Mpc.divLoop p invLead bLow steps rem2).2) := by
      conv_lhs => rw [Mpc.divLoop]
    obtain ⟨ihq, ihr, ihe⟩ := ih rem2 hlen2
    rw [hunfold]
    refine ⟨by simp [ihq], ihr, ?_⟩
    -- decompose rem as rem1 ++ [lead]
    have hdecomp : toPoly p rem =
        toPoly p rem1 + Polynomial.C (lead : ZMod p) *
          Polynomial.X ^ (steps + bLow.length) := by
      conv_lhs => rw [← dropLast_concat_getLastD rem hne]
      rw [toPoly_concat, ← hrem1, ← hlead, hlen1]
    -- the step identity
    have hqcast : (q : ZMod p) = (lead : ZMod p) * (invLead : ZMod p) := by
      rw [hq]
      push_cast [ZMod.natCast_mod]
      ring
    have hstep : toPoly p rem =
        toPoly p rem2 +
          Polynomial.C (q : ZMod p) * Polynomial.X ^ steps *
            toPoly p (bLow ++ [bLast]) := by
      rw [hrem2]
      by_cases hq0 : q = 0
      · -- lead ≡ 0 mod p, so the popped coefficient contributes nothing
        have hlead0 : (lead : ZMod p) = 0 := by
          have h1 : (q : ZMod p) = 0 := by rw [hq0]; simp
          rw [hqcast] at h1
          calc (lead : ZMod p) = (lead : ZMod p) * ((bLast : ZMod p) * invLead) := by
                rw [hinv, mul_one]
            _ = ((lead : ZMod p) * invLead) * bLast := by ring
            _ = 0 := by rw [h1, zero_mul]
        simp only [hq0, ne_eq, not_true_eq_false, if_false, ite_false]
        rw [hdecomp, hlead0]
        simp [hq0]
      · rw [if_pos hq0]
        rw [subtractTop_toPoly p hp q bLow rem1 (by omega), hlen1,
          Nat.add_sub_cancel, hdecomp, toPoly_concat]
        have hqb : (q : ZMod p) * (bLast : ZMod p) = (lead : ZMod p) := by
          rw [hqcast]
          calc (lead : ZMod p) * invLead * bLast
              = (lead : ZMod p) * (bLast * invLead) := by ring
            _ = (lead : ZMod p) := by rw [hinv, mul_one]
        have hCC : Polynomial.C (q : ZMod p) * Polynomial.C (bLast : ZMod p)
            = Polynomial.C (lead : ZMod p) := by
          rw [← Polynomial.C_mul, hqb]
        linear_combination
          (-(Polynomial.X ^ (steps + bLow.length)) : Polynomial (ZMod p)) * hCC
    rw [hstep, ihe,
      toPoly_concat p (Mpc.divLoop p invLead bLow steps rem2).1 q, ihq]
    ring

theorem getLastD_mem (l : List Nat) (h : l ≠ []) : l.getLastD 0 ∈ l := by
  induction l with
  | nil => exact absurd rfl h
  | cons a l ih =>
    cases l with
    | nil => simp
    | cons b t =>
      rw [show (a :: b :: t).getLastD 0 = (b :: t).getLastD 0 from rfl]
      exact List.mem_cons_of_mem a (ih (by simp))

/-- Correctness of `Polynomial::div` over a prime field: for `b` in canonical
form (nonempty, nonzero leading coefficient) with coefficients below `p`,
division succeeds, satisfies the division identity over `ZMod p`, and returns
a remainder strictly shorter than `b` and a quotient of length at most
`a.len + 1 - b.len`. -/
theorem div_spec (p : Nat) (hp : p.Prime) (a b : Mpc.Polynomial)
    (hb : b.coefficients ≠ [])
    (hlast : b.coefficients.getLastD 0 ≠ 0)
    (hlt : b.coefficients.getLastD 0 < p) :
    ∃ q r, a.div b p = .ok (q, r) ∧
      toPoly p a.coefficients =
        toPoly p b.coefficients * toPoly p q.coefficients +
          toPoly p r.coefficients ∧
      r.coefficients.length < b.coefficients.length ∧
      q.coefficients.length ≤ a.coefficients.length + 1 - b.coefficients.length := by
  have hppos : 0 < p := hp.pos
  have hblen : 1 ≤ b.coefficients.length := by
    cases hbc : b.coefficients with
    | nil => exact absurd hbc hb
    | cons x t => simp
  by_cases hshort : a.coefficients.length < b.coefficients.length
  · refine ⟨Mpc.Polynomial.new [], a, ?_, ?_, hshort, ?_⟩
    · unfold Mpc.Polynomial.div
      rw [if_neg hb, if_pos hshort]
    · have h0 : (Mpc.Polynomial.new []).coefficients = ([] : List Nat) := rfl
      rw [h0]
      simp
    · have h0 : (Mpc.Polynomial.new []).coefficients = ([] : List Nat) := rfl
      rw [h0]
      simp
  · obtain ⟨v, hok, hvlt, hvinv⟩ :=
      modulo_inv_prime p hp (b.coefficients.getLastD 0) hlast hlt
    set steps := a.coefficients.length - b.coefficients.length + 1 with hsteps
    set bLow := b.coefficients.dropLast with hbLow
    have hbLowLen : bLow.length = b.coefficients.length - 1 := by
      rw [hbLow, List.length_dropLast]
    have hremlen : a.coefficients.length = steps + bLow.length := by omega
    have hloop := divLoop_spec p hppos v (b.coefficients.getLastD 0) bLow
      (by rw [mul_comm]; exact hvinv) steps a.coefficients hremlen
    have hdecomp : bLow ++ [b.coefficients.getLastD 0] = b.coefficients :=
      dropLast_concat_getLastD b.coefficients hb
    have hdiv : a.div b p = .ok
        (Mpc.Polynomial.new (Mpc.divLoop p v bLow steps a.coefficients).1,
         Mpc.Polynomial.new (Mpc.divLoop p v bLow steps a.coefficients).2) := by
      unfold Mpc.Polynomial.div
      rw [if_neg hb, if_neg hshort, hok]
      rfl
    refine ⟨_, _, hdiv, ?_, ?_, ?_⟩
    · rw [toPoly_new, toPoly_new, ← hdecomp]
      exact hloop.2.2
    · calc (Mpc.Polynomial.new
            (Mpc.divLoop p v bLow steps a.coefficients).2).coefficients.length
          ≤ (Mpc.divLoop p v bLow steps a.coefficients).2.length :=
            new_length_le _
        _ = bLow.length := hloop.2.1
        _ < b.coefficients.length := by omega
    · calc (Mpc.Polynomial.new
            (Mpc.divLoop p v bLow steps a.coefficients).1).coefficients.length
          ≤ (Mpc.divLoop p v bLow steps a.coefficients).1.length :=
            new_length_le _
        _ = steps := hloop.1
        _ ≤ a.coefficients.length + 1 - b.coefficients.length := by omega

/-- C8: polynomial division over the prime field `p`.  For canonical nonzero
`b` (nonempty coefficients, nonzero leading coefficient) with coefficients in
`[0, p)`, `a.div(b, p)` returns `(q, r)` with `a = b*q + r` over `ZMod p` and
`deg r < deg b` (as coefficient-vector lengths); it errors exactly when `b`
is the zero polynomial (empty coefficient vector). -/
theorem polynomial_div_claim (p : Nat) (hp : p.Prime) (a b : Mpc.Polynomial)
    (hblt : ∀ c ∈ b.coefficients, c < p) :
    (Mpc.Polynomial.div a ⟨[]⟩ p =
      .error "unable to divide by zero coefficients") ∧
    (b.coefficients ≠ [] → b.coefficients.getLastD 0 ≠ 0 →
      ∃ q r, a.div b p = .ok (q, r) ∧
        toPoly p a.coefficients =
          toPoly p b.coefficients * toPoly p q.coefficients +
            toPoly p r.coefficients ∧
        r.coefficients.length < b.coefficients.length) := by
  constructor
  · rfl
  · intro hb hlast
    obtain ⟨q, r, hdiv, hid, hrlen, _⟩ :=
      div_spec p hp a b hb hlast (hblt _ (getLastD_mem _ hb))
    exact ⟨q, r, hdiv, hid, hrlen⟩

theorem polynomial_div_claim_witness :
    (Mpc.Polynomial.div ⟨[1, 2, 0, 0, 0, 0, 1]⟩ ⟨[]⟩ 97 =
      .error "unable to divide by zero coefficients") ∧
    (∃ q r, Mpc.Polynomial.div ⟨[1, 2, 0, 0, 0, 0, 1]⟩ ⟨[1, 0, 0, 1]⟩
        97 = .ok (q, r) ∧
      toPoly 97 [1, 2, 0, 0, 0, 0, 1] =
        toPoly 97 [1, 0, 0, 1] * toPoly 97 q.coefficients +
          toPoly 97 r.coefficients ∧
      r.coefficients.length < 4) :=
  ⟨(polynomial_div_claim 97 (by norm_num) ⟨[1, 2, 0, 0, 0, 0, 1]⟩
      ⟨[1, 0, 0, 1]⟩ (by decide)).1,
   (polynomial_div_claim 97 (by norm_num) ⟨[1, 2, 0, 0, 0, 0, 1]⟩
      ⟨[1, 0, 0, 1]⟩ (by decide)).2 (by decide) (by decide)⟩

/-! ## Correctness of `Polynomial::interpolate_from_roots` -/

/-- `∏ (X - root)` over a list of natural roots, in `ZMod p`. -/
noncomputable def rootsProd (p : Nat) (roots : List Nat) : Polynomial (ZMod p) :=
  (roots.map (fun (r : Nat) => Polynomial.X - Polynomial.C (r : ZMod p))).prod

@[simp] theorem rootsProd_nil (p : Nat) : rootsProd p [] = 1 := by
  simp [rootsProd]

theorem rootsProd_cons (p : Nat) (r : Nat) (rs : List Nat) :
    rootsProd p (r :: rs) =
      (Polynomial.X - Polynomial.C (r : ZMod p)) * rootsProd p rs := by
  simp [rootsProd]

theorem u64sub_of_le (a b : Nat) (hb : b ≤ a) (ha : a < 2 ^ 64) :
    Mpc.u64sub a b = a - b := by
  unfold Mpc.u64sub
  rw [show 2 ^ 64 + a - b = (a - b) + 2 ^ 64 by omega,
    Nat.add_mod_right, Nat.mod_eq_of_lt (by omega)]

theorem zipWith_self_drop1 {α β : Type} (f : α → α → β) :
    ∀ l : List α, List.zipWith f l (l.drop 1) =
      List.zipWith f l.dropLast (l.drop 1) := by
  intro l
  induction l with
  | nil => rfl
  | cons a t ih =>
    cases t with
    | nil => rfl
    | cons b t' =>
      simp only [List.drop_one, List.tail_cons, List.dropLast_cons₂,
        List.zipWith_cons_cons]
      simp only [List.drop_one, List.tail_cons] at ih
      rw [ih]

theorem toPoly_dropLast (p : Nat) (l : List Nat) (hl : l ≠ []) :
    toPoly p l.dropLast =
      toPoly p l - Polynomial.C ((l.getLastD 0 : Nat) : ZMod p) *
        Polynomial.X ^ (l.length - 1) := by
  have h := toPoly_concat p l.dropLast (l.getLastD 0)
  rw [dropLast_concat_getLastD l hl, List.length_dropLast] at h
  linear_combination -h

/-- The `mulRootStep` loop body multiplies a monic coefficient vector by
`(x - root)`. -/
theorem mulRootStep_spec (p root : Nat) (hp : 0 < p) (hplt : p < 2 ^ 64)
    (hroot : root ≤ p) (l : List Nat) (hl : l ≠ []) (hlast : l.getLastD 0 = 1) :
    toPoly p (Mpc.mulRootStep p root l) =
      (Polynomial.X - Polynomial.C (root : ZMod p)) * toPoly p l ∧
    Mpc.mulRootStep p root l ≠ [] ∧
    (Mpc.mulRootStep p root l).getLastD 0 = 1 ∧
    (Mpc.mulRootStep p root l).length = l.length + 1 := by
  obtain ⟨c0, rest, rfl⟩ : ∃ c0 rest, l = c0 :: rest := by
    cases l with
    | nil => exact absurd rfl hl
    | cons a t => exact ⟨a, t, rfl⟩
  have hstep : Mpc.mulRootStep p root (c0 :: rest) =
      (c0 * Mpc.u64sub p root % p) ::
        (List.zipWith
          (fun (prev cur : Nat) =>
            Mpc.modulo ((prev : Int) - (cur : Int) * (root : Int)) p)
          (c0 :: rest) ((c0 :: rest).drop 1) ++ [1]) := rfl
  rw [hstep, u64sub_of_le p root hroot hplt, zipWith_self_drop1]
  set zs := List.zipWith
    (fun (prev cur : Nat) =>
      Mpc.modulo ((prev : Int) - (cur : Int) * (root : Int)) p)
    (c0 :: rest).dropLast ((c0 :: rest).drop 1) with hzs
  have hzslen : zs.length = rest.length := by
    rw [hzs, List.length_zipWith, List.length_dropLast]
    simp
  have hzspoly : toPoly p zs =
      toPoly p (c0 :: rest).dropLast -
        Polynomial.C (root : ZMod p) * toPoly p ((c0 :: rest).drop 1) := by
    rw [hzs]
    exact toPoly_zipWith_modulo p hp root _ _
      (by rw [List.length_dropLast]; simp)
  refine ⟨?_, by simp, ?_, ?_⟩
  · rw [toPoly_cons, toPoly_concat, hzspoly, hzslen,
      toPoly_dropLast p (c0 :: rest) (by simp), hlast]
    have hcast : ((c0 * (p - root) % p : Nat) : ZMod p) =
        -((root : ZMod p) * (c0 : ZMod p)) := by
      push_cast [ZMod.natCast_mod]
      rw [Nat.cast_sub hroot, ZMod.natCast_self]
      ring
    rw [hcast]
    simp only [List.length_cons, Nat.add_sub_cancel, List.drop_one,
      List.tail_cons, toPoly_cons, Nat.cast_one, map_one, map_neg, map_mul]
    ring
  · rw [show ((c0 * (p - root) % p) :: (zs ++ [1])) =
      ((c0 * (p - root) % p) :: zs) ++ [1] from by simp]
    induction ((c0 * (p - root) % p) :: zs) with
    | nil => rfl
    | cons x t iht =>
      cases t with
      | nil => rfl
      | cons y t' => simpa using iht
  · simp [hzslen]

/-- The fold of `mulRootStep` over the roots list builds the master
numerator `∏ (x - root)` and stays monic. -/
theorem masterFold_spec (p : Nat) (hp : 0 < p) (hplt : p < 2 ^ 64) :
    ∀ (roots : List Nat) (l : List Nat), (∀ r ∈ roots, r ≤ p) → l ≠ [] →
      l.getLastD 0 = 1 →
      toPoly p (roots.foldl (fun c r => Mpc.mulRootStep p r c) l) =
        rootsProd p roots * toPoly p l ∧
      (roots.foldl (fun c r => Mpc.mulRootStep p r c) l) ≠ [] ∧
      (roots.foldl (fun c r => Mpc.mulRootStep p r c) l).getLastD 0 = 1 ∧
      (roots.foldl (fun c r => Mpc.mulRootStep p r c) l).length =
        l.length + roots.length := by
  intro roots
  induction roots with
  | nil =>
    intro l _ hl hlast
    exact ⟨by simp, hl, hlast, by simp⟩
  | cons r rs ih =>
    intro l hroots hl hlast
    have hr : r ≤ p := hroots r (by simp)
    have hstep := mulRootStep_spec p r hp hplt hr l hl hlast
    have hrec := ih (Mpc.mulRootStep p r l)
      (fun x hx => hroots x (by simp [hx])) hstep.2.1 hstep.2.2.1
    simp only [List.foldl_cons]
    refine ⟨?_, hrec.2.1, hrec.2.2.1, ?_⟩
    · rw [hrec.1, hstep.1, rootsProd_cons]
      ring
    · rw [hrec.2.2.2, hstep.2.2.2]
      simp [List.length_cons]
      omega

/-- `Polynomial::interpolate_from_roots` computes `∏ (x - root)` and is monic
of length `roots.length + 1` (for a nonempty root list with roots `≤ p`). -/
theorem interpolate_from_roots_spec (p : Nat) (hp : 0 < p) (hplt : p < 2 ^ 64)
    (roots : List Nat) (hroots : ∀ r ∈ roots, r ≤ p) (hne : roots ≠ []) :
    toPoly p (Mpc.Polynomial.interpolate_from_roots roots p).coefficients =
      rootsProd p roots ∧
    (Mpc.Polynomial.interpolate_from_roots roots p).coefficients.getLastD 0
      = 1 ∧
    (Mpc.Polynomial.interpolate_from_roots roots p).coefficients.length =
      roots.length + 1 := by
  have hfold := masterFold_spec p hp hplt roots [1] hroots (by simp) rfl
  have hm : (Mpc.Polynomial.interpolate_from_roots roots p).coefficients =
      roots.foldl (fun c r => Mpc.mulRootStep p r c) [1] := by
    unfold Mpc.Polynomial.interpolate_from_roots
    rw [if_neg hne]
  rw [hm]
  refine ⟨?_, hfold.2.2.1, by rw [hfold.2.2.2]; simp [Nat.add_comm]⟩
  rw [hfold.1]
  have h1 : toPoly p [1] = 1 := by
    rw [toPoly_cons]
    simp
  rw [h1, mul_one]

/-! ## Correctness of `Polynomial::interpolate` -/

theorem toPoly_linear (p x : Nat) (hx : x ≤ p) :
    toPoly p [p - x, 1] = Polynomial.X - Polynomial.C (x : ZMod p) := by
  rw [toPoly_cons, toPoly_cons]
  rw [Nat.cast_sub hx, ZMod.natCast_self]
  simp
  ring

theorem rootsProd_erase (p : Nat) (xs : List Nat) (x : Nat) (hx : x ∈ xs) :
    rootsProd p xs =
      (Polynomial.X - Polynomial.C (x : ZMod p)) * rootsProd p (xs.erase x) := by
  have hperm : xs.Perm (x :: xs.erase x) := List.perm_cons_erase hx
  have := (hperm.map
    (fun (r : Nat) => Polynomial.X - Polynomial.C (r : ZMod p))).prod_eq
  rw [rootsProd, this, List.map_cons, List.prod_cons, ← rootsProd]

theorem rootsProd_eval_zero (p : Nat) (xs : List Nat) (x : Nat) (hx : x ∈ xs) :
    (rootsProd p xs).eval (x : ZMod p) = 0 := by
  rw [rootsProd, Polynomial.eval_list_prod]
  apply List.prod_eq_zero
  rw [List.map_map]
  refine List.mem_map.mpr ⟨x, hx, ?_⟩
  simp

/-- Distinct naturals below `p` have distinct casts in `ZMod p`. -/
theorem natCast_injOn_lt (p a b : Nat) (ha : a < p) (hb : b < p)
    (h : (a : ZMod p) = (b : ZMod p)) : a = b := by
  have := (ZMod.natCast_eq_natCast_iff' a b p).mp h
  rwa [Nat.mod_eq_of_lt ha, Nat.mod_eq_of_lt hb] at this

theorem rootsProd_eval_ne_zero (p : Nat) (hp : p.Prime) (xs : List Nat)
    (hlt : ∀ r ∈ xs, r < p) (x : Nat) (hxlt : x < p) (hx : x ∉ xs) :
    (rootsProd p xs).eval (x : ZMod p) ≠ 0 := by
  haveI : Fact p.Prime := ⟨hp⟩
  rw [rootsProd, Polynomial.eval_list_prod, List.map_map]
  rw [Ne, List.prod_eq_zero_iff]
  intro hmem
  obtain ⟨r, hr, hr0⟩ := List.mem_map.mp hmem
  simp only [Function.comp_apply, Polynomial.eval_sub, Polynomial.eval_X,
    Polynomial.eval_C, sub_eq_zero] at hr0
  exact hx (natCast_injOn_lt p x r hxlt (hlt r hr) hr0 ▸ hr)

/-- The numerator `master / (x - point)` computed inside `interpolate`:
for `point ∈ points` it equals `∏ over the other points`. -/
theorem numerator_spec (p : Nat) (hp : p.Prime) (hplt : p < 2 ^ 64)
    (xs : List Nat) (hxs : ∀ r ∈ xs, r < p) (hne : xs ≠ [])
    (x : Nat) (hxlt : x < p) :
    ∃ q r, (Mpc.Polynomial.interpolate_from_roots xs p).div
        ⟨[Mpc.u64sub p x, 1]⟩ p = .ok (q, r) ∧
      q.coefficients.length ≤ xs.length ∧
      (x ∈ xs → toPoly p q.coefficients = rootsProd p (xs.erase x)) := by
  haveI : Fact p.Prime := ⟨hp⟩
  have hppos : 0 < p := hp.pos
  have hmaster := interpolate_from_roots_spec p hppos hplt xs
    (fun r hr => le_of_lt (hxs r hr)) hne
  have hb : Mpc.u64sub p x = p - x := u64sub_of_le p x (le_of_lt hxlt) hplt
  have hbco : (Mpc.Polynomial.mk [Mpc.u64sub p x, 1]).coefficients
      = [p - x, 1] := by rw [hb]
  have hlast1 : ([p - x, 1] : List Nat).getLastD 0 = 1 := rfl
  have hdiv := div_spec p hp (Mpc.Polynomial.interpolate_from_roots xs p)
    ⟨[Mpc.u64sub p x, 1]⟩ (by rw [hbco]; simp) (by rw [hbco, hlast1]; exact one_ne_zero)
    (by rw [hbco, hlast1]; exact hp.one_lt)
  obtain ⟨q, r, hok, hid, hrlen, hqlen⟩ := hdiv
  rw [hbco] at hid hrlen hqlen
  rw [hmaster.1, toPoly_linear p x (le_of_lt hxlt)] at hid
  refine ⟨q, r, hok, ?_, ?_⟩
  · rw [hmaster.2.2] at hqlen
    simpa using hqlen
  · intro hxmem
    -- the remainder is the zero polynomial
    have hrzero : toPoly p r.coefficients = 0 := by
      have heval := congrArg (Polynomial.eval ((x : ZMod p))) hid
      rw [rootsProd_eval_zero p xs x hxmem] at heval
      simp only [Polynomial.eval_add, Polynomial.eval_mul, Polynomial.eval_sub,
        Polynomial.eval_X, Polynomial.eval_C, sub_self, zero_mul] at heval
      have hrc : r.coefficients = [] ∨ ∃ c, r.coefficients = [c] := by
        rcases hr : r.coefficients with _ | ⟨c, t⟩
        · exact Or.inl rfl
        · rcases ht : t with _ | ⟨d, t'⟩
          · exact Or.inr ⟨c, rfl⟩
          · rw [hr, ht] at hrlen
            exact absurd hrlen (by simp)
      rcases hrc with hrc | ⟨c, hrc⟩
      · rw [hrc]
        simp
      · rw [hrc] at heval ⊢
        rw [toPoly_cons] at heval ⊢
        simp only [toPoly_nil, mul_zero, add_zero, Polynomial.eval_add,
          Polynomial.eval_C] at heval ⊢
        rw [show ((0 : ZMod p) = 0 + Polynomial.eval (↑x) (Polynomial.X * 0))
          from by simp] at heval
        have hc0 : ((c : Nat) : ZMod p) = 0 := by
          simpa using heval.symm
        rw [hc0]
        simp
    rw [hrzero, add_zero, rootsProd_erase p xs x hxmem] at hid
    exact (mul_left_cancel₀ (Polynomial.X_sub_C_ne_zero (x : ZMod p)) hid).symm

theorem addScaled_length (p w : Nat) :
    ∀ (acc num : List Nat), num.length ≤ acc.length →
      (Mpc.addScaled p w acc num).length = acc.length := by
  intro acc
  induction acc with
  | nil =>
    intro num h
    have : num = [] := List.eq_nil_of_length_eq_zero (Nat.le_zero.mp (by simpa using h))
    rw [this]
    rfl
  | cons a t ih =>
    intro num h
    cases num with
    | nil => rfl
    | cons n nt =>
      show (Mpc.addScaled p w t nt).length + 1 = t.length + 1
      rw [ih nt (by simpa using h)]

theorem addScaled_lt (p w : Nat) (hp : 0 < p) :
    ∀ (acc num : List Nat), (∀ c ∈ acc, c < p) →
      ∀ c ∈ Mpc.addScaled p w acc num, c < p := by
  intro acc
  induction acc with
  | nil =>
    intro num _ c hc
    cases num with
    | nil => exact absurd hc (by rw [show Mpc.addScaled p w [] [] = [] from rfl]; simp)
    | cons n nt =>
      exact absurd hc (by rw [show Mpc.addScaled p w [] (n :: nt) = [] from rfl]; simp)
  | cons a t ih =>
    intro num hacc c hc
    cases num with
    | nil => exact hacc c hc
    | cons n nt =>
      rw [show Mpc.addScaled p w (a :: t) (n :: nt) =
        ((a + n * w) % p) :: Mpc.addScaled p w t nt from rfl] at hc
      rcases List.mem_cons.mp hc with hc | hc
      · rw [hc]
        exact Nat.mod_lt _ hp
      · exact ih nt (fun d hd => hacc d (by simp [hd])) c hc

theorem addScaled_toPoly (p w : Nat) (hp : 0 < p) :
    ∀ (acc num : List Nat), num.length ≤ acc.length →
      toPoly p (Mpc.addScaled p w acc num) =
        toPoly p acc + Polynomial.C (w : ZMod p) * toPoly p num := by
  intro acc
  induction acc with
  | nil =>
    intro num h
    have : num = [] := List.eq_nil_of_length_eq_zero (Nat.le_zero.mp (by simpa using h))
    rw [this]
    simp [Mpc.addScaled]
  | cons a t ih =>
    intro num h
    cases num with
    | nil =>
      rw [show Mpc.addScaled p w (a :: t) [] = a :: t from rfl]
      simp
    | cons n nt =>
      show toPoly p (((a + n * w) % p) :: Mpc.addScaled p w t nt) = _
      rw [toPoly_cons, toPoly_cons, toPoly_cons, ih nt (by simpa using h)]
      push_cast [ZMod.natCast_mod]
      simp only [map_add, map_mul]
      ring

/-- Invariant of the `interpolate` accumulation loop on distinct points:
every processed pair's value is interpolated, evaluations at untouched points
of `xs` are preserved, and the accumulator stays bounded. -/
theorem interpolateGo_spec (p : Nat) (hp : p.Prime) (hplt : p < 2 ^ 64)
    (xs : List Nat) (hxs : ∀ r ∈ xs, r < p) (hnodup : xs.Nodup)
    (hne : xs ≠ []) :
    ∀ (pairs : List (Nat × Nat)) (acc : List Nat),
      (∀ pr ∈ pairs, pr.1 ∈ xs) →
      (pairs.map Prod.fst).Nodup →
      acc.length = xs.length →
      (∀ c ∈ acc, c < p) →
      (∀ pr ∈ pairs, (toPoly p acc).eval ((pr.1 : Nat) : ZMod p) = 0) →
      ∃ final,
        Mpc.interpolateGo p (Mpc.Polynomial.interpolate_from_roots xs p)
          pairs acc = .ok final ∧
        final.length = xs.length ∧
        (∀ c ∈ final, c < p) ∧
        (∀ pr ∈ pairs,
          (toPoly p final).eval ((pr.1 : Nat) : ZMod p) = ((pr.2 : Nat) : ZMod p)) ∧
        (∀ x' ∈ xs, (∀ pr ∈ pairs, x' ≠ pr.1) →
          (toPoly p final).eval ((x' : Nat) : ZMod p) =
            (toPoly p acc).eval ((x' : Nat) : ZMod p)) := by
  intro pairs
  induction pairs with
  | nil =>
    intro acc _ _ hlen hbound _
    exact ⟨acc, rfl, hlen, hbound, by simp, fun x' _ _ => rfl⟩
  | cons hd rest ih =>
    obtain ⟨x, y⟩ := hd
    intro acc hmem hpnodup hlen hbound hzero
    have hx : x ∈ xs := hmem (x, y) (by simp)
    have hxlt : x < p := hxs x hx
    obtain ⟨q, r, hok, hqlen, hqpoly⟩ :=
      numerator_spec p hp hplt xs hxs hne x hxlt
    have hq := hqpoly hx
    -- the evaluation of the numerator at its own point is invertible
    have heval := evaluate_spec q x p hp.pos
    have hcastE : ((q.evaluate x p : Nat) : ZMod p) =
        (rootsProd p (xs.erase x)).eval ((x : Nat) : ZMod p) := by
      rw [heval.1, hq]
    have hxnotin : x ∉ xs.erase x := by
      intro hcon
      exact absurd (hnodup.mem_erase_iff.mp hcon).1 (by simp)
    have hEz : ((q.evaluate x p : Nat) : ZMod p) ≠ 0 := by
      rw [hcastE]
      exact rootsProd_eval_ne_zero p hp (xs.erase x)
        (fun r hr => hxs r (List.mem_of_mem_erase hr)) x hxlt hxnotin
    have hEne : q.evaluate x p ≠ 0 := by
      intro h0
      rw [h0] at hEz
      simp at hEz
    obtain ⟨v, hvok, hvlt, hvinv⟩ :=
      modulo_inv_prime p hp (q.evaluate x p) hEne heval.2
    -- one loop iteration
    have h1 : Mpc.interpolateGo p (Mpc.Polynomial.interpolate_from_roots xs p)
        ((x, y) :: rest) acc =
        ((Mpc.Polynomial.interpolate_from_roots xs p).div
            ⟨[Mpc.u64sub p x, 1]⟩ p).bind (fun numPair =>
          (Mpc.modulo_inv (numPair.1.evaluate x p) p).bind (fun inv =>
            Mpc.interpolateGo p (Mpc.Polynomial.interpolate_from_roots xs p)
              rest (Mpc.addScaled p (y * inv % p) acc
                numPair.1.coefficients))) := rfl
    have hstep : Mpc.interpolateGo p
        (Mpc.Polynomial.interpolate_from_roots xs p) ((x, y) :: rest) acc =
        Mpc.interpolateGo p (Mpc.Polynomial.interpolate_from_roots xs p)
          rest (Mpc.addScaled p (y * v % p) acc q.coefficients) := by
      rw [h1, hok]
      show (Mpc.modulo_inv (q.evaluate x p) p).bind _ = _
      rw [hvok]
      rfl
    set acc' := Mpc.addScaled p (y * v % p) acc q.coefficients with hacc'
    have hqlen' : q.coefficients.length ≤ acc.length := by omega
    have hlen' : acc'.length = xs.length := by
      rw [hacc', addScaled_length p _ acc q.coefficients hqlen']
      exact hlen
    have hbound' : ∀ c ∈ acc', c < p :=
      addScaled_lt p _ hp.pos acc q.coefficients hbound
    have hpoly' : toPoly p acc' =
        toPoly p acc + Polynomial.C ((y * v % p : Nat) : ZMod p) *
          toPoly p q.coefficients :=
      addScaled_toPoly p _ hp.pos acc q.coefficients hqlen'
    have hxnotrest : ∀ pr ∈ rest, x ≠ pr.1 := by
      intro pr hpr heq
      have : x ∈ rest.map Prod.fst := List.mem_map.mpr ⟨pr, hpr, heq.symm⟩
      have hnod := hpnodup
      rw [List.map_cons] at hnod
      exact (List.nodup_cons.mp hnod).1 this
    -- evaluations after this step
    have heval' : ∀ x' ∈ xs, x' ≠ x →
        (toPoly p acc').eval ((x' : Nat) : ZMod p) =
          (toPoly p acc).eval ((x' : Nat) : ZMod p) := by
      intro x' hx' hne'
      rw [hpoly']
      simp only [Polynomial.eval_add, Polynomial.eval_mul, Polynomial.eval_C]
      rw [hq, rootsProd_eval_zero p (xs.erase x) x'
        (hnodup.mem_erase_iff.mpr ⟨hne', hx'⟩)]
      ring
    have hevalx : (toPoly p acc').eval ((x : Nat) : ZMod p) =
        ((y : Nat) : ZMod p) := by
      rw [hpoly']
      simp only [Polynomial.eval_add, Polynomial.eval_mul, Polynomial.eval_C]
      rw [hzero (x, y) (by simp), zero_add]
      have hqe : Polynomial.eval ((x : Nat) : ZMod p) (toPoly p q.coefficients)
          = ((q.evaluate x p : Nat) : ZMod p) := heval.1.symm
      rw [hqe]
      push_cast [ZMod.natCast_mod]
      calc ((y : ZMod p) * (v : ZMod p)) * ((q.evaluate x p : Nat) : ZMod p)
          = (y : ZMod p) * ((v : ZMod p) * ((q.evaluate x p : Nat) : ZMod p)) := by
            ring
        _ = (y : ZMod p) := by
            rw [hvinv, mul_one]
    obtain ⟨final, hfok, hflen, hfbound, hfpairs, hfpres⟩ :=
      ih acc' (fun pr hpr => hmem pr (by simp [hpr]))
        (by rw [List.map_cons] at hpnodup; exact (List.nodup_cons.mp hpnodup).2)
        hlen' hbound'
        (by
          intro pr hpr
          have hprx : pr.1 ∈ xs := hmem pr (by simp [hpr])
          have hprne : pr.1 ≠ x := fun h => (hxnotrest pr hpr h.symm)
          rw [heval' pr.1 hprx hprne]
          exact hzero pr (by simp [hpr]))
    refine ⟨final, by rw [hstep]; exact hfok, hflen, hfbound, ?_, ?_⟩
    · intro pr hpr
      rcases List.mem_cons.mp hpr with hpr | hpr
      · rw [hpr]
        rw [hfpres x hx hxnotrest]
        exact hevalx
      · exact hfpairs pr hpr
    · intro x' hx' hall
      have hx'ne : x' ≠ x := hall (x, y) (by simp)
      rw [hfpres x' hx' (fun pr hpr => hall pr (by simp [hpr]))]
      exact heval' x' hx' hx'ne

/-- When some pending point occurs at least twice in `xs`, the accumulation
loop fails with `modulo_inv` applied to zero. -/
theorem interpolateGo_dup_error (p : Nat) (hp : p.Prime) (hplt : p < 2 ^ 64)
    (xs : List Nat) (hxs : ∀ r ∈ xs, r < p) (hne : xs ≠ []) :
    ∀ (pairs : List (Nat × Nat)) (acc : List Nat),
      (∀ pr ∈ pairs, pr.1 ∈ xs) →
      (∃ pr ∈ pairs, 2 ≤ xs.count pr.1) →
      Mpc.interpolateGo p (Mpc.Polynomial.interpolate_from_roots xs p)
        pairs acc = .error "0 does not have an index" := by
  intro pairs
  induction pairs with
  | nil =>
    intro acc _ hdup
    obtain ⟨pr, hpr, _⟩ := hdup
    exact absurd hpr (by simp)
  | cons hd rest ih =>
    obtain ⟨x, y⟩ := hd
    intro acc hmem hdup
    have hx : x ∈ xs := hmem (x, y) (by simp)
    have hxlt : x < p := hxs x hx
    obtain ⟨q, r, hok, hqlen, hqpoly⟩ :=
      numerator_spec p hp hplt xs hxs hne x hxlt
    have hq := hqpoly hx
    have heval := evaluate_spec q x p hp.pos
    have h1 : Mpc.interpolateGo p (Mpc.Polynomial.interpolate_from_roots xs p)
        ((x, y) :: rest) acc =
        ((Mpc.Polynomial.interpolate_from_roots xs p).div
            ⟨[Mpc.u64sub p x, 1]⟩ p).bind (fun numPair =>
          (Mpc.modulo_inv (numPair.1.evaluate x p) p).bind (fun inv =>
            Mpc.interpolateGo p (Mpc.Polynomial.interpolate_from_roots xs p)
              rest (Mpc.addScaled p (y * inv % p) acc
                numPair.1.coefficients))) := rfl
    by_cases hcx : 2 ≤ xs.count x
    · -- the point collides: the numerator vanishes at it
      have hxerase : x ∈ xs.erase x := by
        have := List.count_erase_self x xs
        have hpos : 0 < (xs.erase x).count x := by omega
        exact List.count_pos_iff.mp hpos
      have hE0 : q.evaluate x p = 0 := by
        have hcast0 : ((q.evaluate x p : Nat) : ZMod p) = 0 := by
          rw [heval.1, hq]
          exact rootsProd_eval_zero p (xs.erase x) x hxerase
        have hdvd := (ZMod.natCast_zmod_eq_zero_iff_dvd _ _).mp hcast0
        exact Nat.eq_zero_of_dvd_of_lt hdvd heval.2
      rw [h1, hok]
      show (Mpc.modulo_inv (q.evaluate x p) p).bind _ = _
      rw [hE0]
      rfl
    · -- this point is unique: the step succeeds and the collision is later
      have hcx1 : xs.count x = 1 := by
        have : 1 ≤ xs.count x := List.count_pos_iff.mpr hx
        omega
      have hxnotin : x ∉ xs.erase x := by
        intro hcon
        have := List.count_erase_self x xs
        have : 0 < (xs.erase x).count x := List.count_pos_iff.mpr hcon
        omega
      have hEz : ((q.evaluate x p : Nat) : ZMod p) ≠ 0 := by
        rw [heval.1, hq]
        exact rootsProd_eval_ne_zero p hp (xs.erase x)
          (fun r hr => hxs r (List.mem_of_mem_erase hr)) x hxlt hxnotin
      have hEne : q.evaluate x p ≠ 0 := by
        intro h0
        rw [h0] at hEz
        simp at hEz
      obtain ⟨v, hvok, _, _⟩ :=
        modulo_inv_prime p hp (q.evaluate x p) hEne heval.2
      have hdup' : ∃ pr ∈ rest, 2 ≤ xs.count pr.1 := by
        obtain ⟨pr, hpr, hc⟩ := hdup
        rcases List.mem_cons.mp hpr with hpr | hpr
        · exact absurd (hpr ▸ hc) (by simpa using hcx)
        · exact ⟨pr, hpr, hc⟩
      rw [h1, hok]
      show (Mpc.modulo_inv (q.evaluate x p) p).bind _ = _
      rw [hvok]
      show Mpc.interpolateGo p (Mpc.Polynomial.interpolate_from_roots xs p)
        rest (Mpc.addScaled p (y * v % p) acc q.coefficients) = _
      exact ih _ (fun pr hpr => hmem pr (by simp [hpr])) hdup'

theorem new_subset (l : List Nat) :
    ∀ c ∈ (Mpc.Polynomial.new l).coefficients, c ∈ l := by
  intro c hc
  unfold Mpc.Polynomial.new at hc
  rw [List.mem_reverse] at hc
  have := (List.dropWhile_sublist (fun x => decide (x = 0))).subset hc
  rwa [List.mem_reverse] at this

/-- `Polynomial::interpolate` on equal-length inputs with distinct points
below `p`: succeeds with a polynomial of ≤ `len(xs)` coefficients, all below
`p`, interpolating every pair over `ZMod p`. -/
theorem interpolate_ok (p : Nat) (hp : p.Prime) (hplt : p < 2 ^ 64)
    (xs ys : List Nat) (hlen : xs.length = ys.length)
    (hxs : ∀ x ∈ xs, x < p) (hnodup : xs.Nodup) :
    ∃ f, Mpc.Polynomial.interpolate xs ys p = .ok f ∧
      f.coefficients.length ≤ xs.length ∧
      (∀ c ∈ f.coefficients, c < p) ∧
      (∀ pr ∈ xs.zip ys,
        (toPoly p f.coefficients).eval ((pr.1 : Nat) : ZMod p) =
          ((pr.2 : Nat) : ZMod p)) := by
  by_cases hempty : xs = []
  · subst hempty
    have hys : ys = [] := List.eq_nil_of_length_eq_zero hlen.symm
    subst hys
    exact ⟨Mpc.Polynomial.new [], rfl, by simp [Mpc.Polynomial.new], by
      intro c hc
      exact absurd hc (by simp [Mpc.Polynomial.new]), by simp⟩
  · have hmain := interpolateGo_spec p hp hplt xs hxs hnodup hempty
      (xs.zip ys) (List.replicate xs.length 0)
      (by
        intro pr hpr
        obtain ⟨a, b⟩ := pr
        exact (List.mem_zip hpr).1)
      (by rw [List.map_fst_zip xs ys (by omega)]; exact hnodup)
      (by simp)
      (by
        intro c hc
        rw [List.eq_of_mem_replicate hc]
        exact hp.pos)
      (by
        intro pr _
        rw [toPoly_replicate_zero]
        simp)
    obtain ⟨final, hfok, hflen, hfbound, hfpairs, _⟩ := hmain
    have hint : Mpc.Polynomial.interpolate xs ys p =
        (Mpc.interpolateGo p (Mpc.Polynomial.interpolate_from_roots xs p)
          (xs.zip ys) (List.replicate xs.length 0)).bind
          (fun coefficients => .ok (Mpc.Polynomial.new coefficients)) := by
      unfold Mpc.Polynomial.interpolate
      rw [if_neg (by omega)]
      rfl
    refine ⟨Mpc.Polynomial.new final, ?_, ?_, ?_, ?_⟩
    · rw [hint, hfok]
      rfl
    · calc (Mpc.Polynomial.new final).coefficients.length
          ≤ final.length := new_length_le final
        _ = xs.length := hflen
    · intro c hc
      exact hfbound c (new_subset final c hc)
    · intro pr hpr
      rw [toPoly_new]
      exact hfpairs pr hpr

/-- C7: `Polynomial::interpolate` over a prime field `p < 2^64`, with points
and values below `p`.  It errors on a length mismatch; on distinct points it
returns a polynomial with fewer than `len(xs) + 1` coefficients passing
through every `(x_i, y_i)`; on a repeated point it errors through
`modulo_inv` applied to zero. -/
theorem polynomial_interpolate_claim (p : Nat) (hp : p.Prime)
    (hplt : p < 2 ^ 64) (xs ys : List Nat)
    (hxs : ∀ x ∈ xs, x < p) (hys : ∀ y ∈ ys, y < p) :
    (xs.length ≠ ys.length →
      Mpc.Polynomial.interpolate xs ys p =
        .error "points and values must have the same length") ∧
    (xs.length = ys.length → xs.Nodup →
      ∃ f, Mpc.Polynomial.interpolate xs ys p = .ok f ∧
        f.coefficients.length ≤ xs.length ∧
        ∀ pr ∈ xs.zip ys, f.evaluate pr.1 p = pr.2) ∧
    (xs.length = ys.length → ¬ xs.Nodup →
      Mpc.Polynomial.interpolate xs ys p =
        .error "0 does not have an index") := by
  refine ⟨?_, ?_, ?_⟩
  · intro hne
    unfold Mpc.Polynomial.interpolate
    rw [if_pos hne]
  · intro hlen hnodup
    obtain ⟨f, hfok, hflen, hfbound, hfeval⟩ :=
      interpolate_ok p hp hplt xs ys hlen hxs hnodup
    refine ⟨f, hfok, hflen, ?_⟩
    intro pr hpr
    obtain ⟨a, b⟩ := pr
    have hmem := List.mem_zip hpr
    have halt : a < p := hxs a hmem.1
    have hblt : b < p := hys b hmem.2
    have heval := evaluate_spec f a p hp.pos
    apply natCast_injOn_lt p _ _ heval.2 hblt
    rw [heval.1]
    exact hfeval (a, b) hpr
  · intro hlen hnodup
    have hdup : ∃ a, 2 ≤ xs.count a := by
      by_contra hcon
      push_neg at hcon
      exact hnodup (List.nodup_iff_count_le_one.mpr (fun a => by
        have := hcon a
        omega))
    obtain ⟨a, ha2⟩ := hdup
    have hamem : a ∈ xs := List.count_pos_iff.mp (by omega)
    have hane : xs ≠ [] := by
      intro h
      rw [h] at hamem
      exact absurd hamem (by simp)
    have hpair : ∃ pr ∈ xs.zip ys, pr.1 = a := by
      have : a ∈ List.map Prod.fst (xs.zip ys) := by
        rw [List.map_fst_zip xs ys (by omega)]
        exact hamem
      obtain ⟨pr, hpr, heq⟩ := List.mem_map.mp this
      exact ⟨pr, hpr, heq⟩
    obtain ⟨pr, hpr, hpra⟩ := hpair
    have herr := interpolateGo_dup_error p hp hplt xs hxs hane
      (xs.zip ys) (List.replicate xs.length 0)
      (by
        intro q hq
        obtain ⟨c, d⟩ := q
        exact (List.mem_zip hq).1)
      ⟨pr, hpr, by rw [hpra]; exact ha2⟩
    have hint : Mpc.Polynomial.interpolate xs ys p =
        (Mpc.interpolateGo p (Mpc.Polynomial.interpolate_from_roots xs p)
          (xs.zip ys) (List.replicate xs.length 0)).bind
          (fun coefficients => .ok (Mpc.Polynomial.new coefficients)) := by
      unfold Mpc.Polynomial.interpolate
      rw [if_neg (by omega)]
      rfl
    rw [hint, herr]
    rfl

theorem polynomial_interpolate_claim_witness :
    (Mpc.Polynomial.interpolate [0, 1] [5] 97 =
      .error "points and values must have the same length") ∧
    (∃ f, Mpc.Polynomial.interpolate [0, 1, 2] [5, 7, 11] 97 = .ok f ∧
      f.coefficients.length ≤ 3 ∧
      ∀ pr ∈ ([0, 1, 2] : List Nat).zip [5, 7, 11],
        f.evaluate pr.1 97 = pr.2) ∧
    (Mpc.Polynomial.interpolate [1, 1] [5, 7] 97 =
      .error "0 does not have an index") :=
  ⟨(polynomial_interpolate_claim 97 (by norm_num) (by norm_num) [0, 1] [5]
      (by decide) (by decide)).1 (by decide),
   (polynomial_interpolate_claim 97 (by norm_num) (by norm_num) [0, 1, 2]
      [5, 7, 11] (by decide) (by decide)).2.1 (by decide) (by decide),
   (polynomial_interpolate_claim 97 (by norm_num) (by norm_num) [1, 1] [5, 7]
      (by decide) (by decide)).2.2 (by decide) (by decide)⟩

/-! ## The secret-sharing round trip -/

theorem toPoly_natDegree_lt (p : Nat) :
    ∀ (l : List Nat), l ≠ [] → (toPoly p l).natDegree < l.length := by
  intro l
  induction l with
  | nil => intro h; exact absurd rfl h
  | cons c cs ih =>
    intro _
    cases cs with
    | nil =>
      rw [toPoly_cons]
      simp
    | cons d t =>
      rw [toPoly_cons]
      calc (Polynomial.C ((c : Nat) : ZMod p) +
            Polynomial.X * toPoly p (d :: t)).natDegree
          ≤ max (Polynomial.C ((c : Nat) : ZMod p)).natDegree
              (Polynomial.X * toPoly p (d :: t)).natDegree :=
            Polynomial.natDegree_add_le _ _
        _ ≤ max 0 (1 + (toPoly p (d :: t)).natDegree) := by
            apply max_le_max
            · simp
            · calc (Polynomial.X * toPoly p (d :: t)).natDegree
                  ≤ Polynomial.X.natDegree + (toPoly p (d :: t)).natDegree :=
                    Polynomial.natDegree_mul_le
                _ ≤ 1 + (toPoly p (d :: t)).natDegree := by
                    have := Polynomial.natDegree_X_le (R := ZMod p)
                    omega
        _ < (c :: d :: t).length := by
            have := ih (by simp)
            simp only [List.length_cons] at this ⊢
            omega

theorem zip_self_map {a b : Type} (l : List a) (g : a → b) :
    l.zip (l.map g) = l.map (fun e => (e, g e)) := by
  induction l with
  | nil => rfl
  | cons e t ih => simp [ih]

theorem toPoly_coeff_zero (p : Nat) (l : List Nat) :
    (toPoly p l).coeff 0 = ((l.headD 0 : Nat) : ZMod p) := by
  cases l with
  | nil => simp
  | cons c cs =>
    rw [toPoly_cons]
    simp [Polynomial.mul_coeff_zero]

/-- C2 counterexample: with `p = 3`, points `{1, 4} ⊂ [1, 255]`, secret `0`
and random draw `0`, point `4` collides with point `1` modulo `3`, so
`recover_secret` fails instead of returning the secret. -/
theorem secret_sharing_counterexample :
    Nat.Prime 3 ∧ ([1, 4] : List Nat).Nodup ∧
    (∀ x ∈ ([1, 4] : List Nat), 1 ≤ x ∧ x ≤ 255) ∧
    Mpc.recover_secret ((Mpc.split_secret 0 [1, 4] [0] 3).map
      (fun pr => Mpc.Share.mk pr.1 pr.2)) 3 =
      .error "0 does not have an index" :=
  ⟨by norm_num, by decide, by decide, by decide⟩

/-- C2 (amended): the round trip additionally requires every point to be
below `p` (automatic when `p > 255`): for any prime `p < 2^64`, secret
`s ∈ [0, p)`, distinct nonzero points in `[1, 255]` all below `p`, at least
two of them, and any values of the random draws, recovering the split shares
returns the secret.  The quantification over the (ordered) list `xs` covers
every iteration order of the share `HashMap`. -/
theorem secret_sharing_round_trip (p : Nat) (hp : p.Prime) (hplt : p < 2 ^ 64)
    (s : Nat) (hs : s < p) (xs : List Nat)
    (hxsrange : ∀ x ∈ xs, 1 ≤ x ∧ x ≤ 255)
    (hxslt : ∀ x ∈ xs, x < p) (hnodup : xs.Nodup) (hlen2 : 2 ≤ xs.length)
    (draws : List Nat) (hdraws : draws.length = xs.length - 1) :
    Mpc.recover_secret ((Mpc.split_secret s xs draws p).map
      (fun pr => Mpc.Share.mk pr.1 pr.2)) p = .ok s := by
  haveI : Fact p.Prime := ⟨hp⟩
  have hppos : 0 < p := hp.pos
  set splitCoeffs := s :: draws.map (· % p) with hsplitCoeffs
  set poly := Mpc.Polynomial.new splitCoeffs with hpoly
  have hsplit : Mpc.split_secret s xs draws p =
      xs.map (fun x => (x, poly.evaluate x p)) := rfl
  set shares := (Mpc.split_secret s xs draws p).map
    (fun pr => Mpc.Share.mk pr.1 pr.2) with hshares
  have hpoints : shares.map (·.point) = xs := by
    rw [hshares, hsplit, List.map_map, List.map_map]
    simp [Function.comp_def]
  have hvalues : shares.map (·.value) =
      xs.map (fun x => poly.evaluate x p) := by
    rw [hshares, hsplit, List.map_map, List.map_map]
    simp [Function.comp_def]
  have hrec : Mpc.recover_secret shares p =
      (Mpc.Polynomial.interpolate (shares.map (·.point))
        (shares.map (·.value)) p).bind
        (fun f => .ok f.evaluate_at_zero) := rfl
  obtain ⟨f, hfok, hflen, hfbound, hfeval⟩ :=
    interpolate_ok p hp hplt xs (xs.map (fun x => poly.evaluate x p))
      (by simp) hxslt hnodup
  -- `f` agrees with the split polynomial on all `xs.length` distinct points
  have hagree : ∀ x ∈ xs,
      (toPoly p f.coefficients).eval ((x : Nat) : ZMod p) =
        (toPoly p splitCoeffs).eval ((x : Nat) : ZMod p) := by
    intro x hx
    have hpair : (x, poly.evaluate x p) ∈
        xs.zip (xs.map (fun x => poly.evaluate x p)) := by
      rw [zip_self_map xs (fun x => poly.evaluate x p)]
      exact List.mem_map.mpr ⟨x, hx, rfl⟩
    have h1 := hfeval (x, poly.evaluate x p) hpair
    have h2 := evaluate_spec poly x p hppos
    rw [h1]
    show ((poly.evaluate x p : Nat) : ZMod p) = _
    rw [h2.1]
    rw [show toPoly p poly.coefficients = toPoly p splitCoeffs from
      toPoly_new p splitCoeffs]
  have hd : toPoly p f.coefficients = toPoly p splitCoeffs := by
    have hsplen : splitCoeffs.length = xs.length := by
      rw [hsplitCoeffs]
      simp [hdraws]
      omega
    set g := toPoly p f.coefficients - toPoly p splitCoeffs with hg
    have hdeg : g.natDegree < xs.length := by
      have h1 : (toPoly p f.coefficients).natDegree < xs.length := by
        by_cases hfc : f.coefficients = []
        · rw [hfc]
          simp
          omega
        · exact lt_of_lt_of_le (toPoly_natDegree_lt p f.coefficients hfc) hflen
      have h2 : (toPoly p splitCoeffs).natDegree < xs.length := by
        have := toPoly_natDegree_lt p splitCoeffs (by rw [hsplitCoeffs]; simp)
        omega
      calc g.natDegree ≤ max (toPoly p f.coefficients).natDegree
            (toPoly p splitCoeffs).natDegree := Polynomial.natDegree_sub_le _ _
        _ < xs.length := by omega
    have hcastnodup : (xs.map (fun x => ((x : Nat) : ZMod p))).Nodup :=
      hnodup.map_on (fun x hx y hy hxy =>
        natCast_injOn_lt p x y (hxslt x hx) (hxslt y hy) hxy)
    have hcard : (xs.map (fun x => ((x : Nat) : ZMod p))).toFinset.card =
        xs.length := by
      rw [List.toFinset_card_of_nodup hcastnodup, List.length_map]
    have hzero : g = 0 := by
      apply Polynomial.eq_zero_of_natDegree_lt_card_of_eval_eq_zero' g
        (xs.map (fun x => ((x : Nat) : ZMod p))).toFinset
      · intro z hz
        obtain ⟨x, hx, rfl⟩ := List.mem_map.mp (List.mem_toFinset.mp hz)
        rw [hg]
        simp only [Polynomial.eval_sub]
        rw [hagree x hx]
        ring
      · rw [hcard]
        exact hdeg
    have := sub_eq_zero.mp (hg ▸ hzero)
    exact this
  -- conclude on the constant coefficient
  rw [hrec, hpoints, hvalues, hfok]
  show Except.ok f.evaluate_at_zero = Except.ok s
  congr 1
  have hat0 : f.evaluate_at_zero = f.coefficients.headD 0 := by
    rcases hfc : f.coefficients with _ | ⟨c, t⟩
    · simp [Mpc.Polynomial.evaluate_at_zero, hfc]
    · simp [Mpc.Polynomial.evaluate_at_zero, hfc]
  have hcast : ((f.evaluate_at_zero : Nat) : ZMod p) = ((s : Nat) : ZMod p) := by
    rw [hat0, ← toPoly_coeff_zero, hd, toPoly_coeff_zero]
    rfl
  have hlt : f.evaluate_at_zero < p := by
    rw [hat0]
    rcases hfc : f.coefficients with _ | ⟨c, t⟩
    · simpa using hppos
    · exact hfbound c (by rw [hfc]; simp)
  exact natCast_injOn_lt p _ _ hlt hs hcast

theorem secret_sharing_round_trip_witness :
    Mpc.recover_secret ((Mpc.split_secret 42 [1, 2, 3] [17, 23] 97).map
      (fun pr => Mpc.Share.mk pr.1 pr.2)) 97 = .ok 42 :=
  secret_sharing_round_trip 97 (by norm_num) (by norm_num) 42 (by decide)
    [1, 2, 3] (by decide) (by decide) (by decide) (by decide) [17, 23]
    (by decide)

/-! ## Map lemmas for the addition-process claims -/

namespace Mpc.Kmap

theorem lookup_nil (k : Nat) : lookup ([] : Kmap) k = none := rfl

theorem lookup_cons (a b k : Nat) (t : Kmap) :
    lookup ((a, b) :: t) k = if a = k then some b else lookup t k := by
  by_cases h : a = k
  · simp [lookup, List.find?_cons, h]
  · simp [lookup, List.find?_cons, h]

theorem keysNodup_of_wf {m : Kmap} (h : m.WF) :
    (m.map Prod.fst).Nodup := by
  induction m with
  | nil => simp
  | cons a t ih =>
    rw [WF, List.pairwise_cons] at h
    rw [List.map_cons, List.nodup_cons]
    refine ⟨?_, ih h.2⟩
    intro hmem
    obtain ⟨pr, hpr, heq⟩ := List.mem_map.mp hmem
    exact absurd (heq ▸ h.1 pr hpr) (by omega)

theorem lookup_isSome_iff_mem_keys (m : Kmap) (k : Nat) :
    (lookup m k).isSome ↔ k ∈ m.map Prod.fst := by
  induction m with
  | nil => simp [lookup_nil]
  | cons a t ih =>
    obtain ⟨ka, va⟩ := a
    rw [lookup_cons]
    by_cases h : ka = k
    · simp [h]
    · rw [if_neg h]
      simp only [List.map_cons, List.mem_cons]
      rw [ih]
      constructor
      · intro hm
        exact Or.inr hm
      · intro hm
        rcases hm with hm | hm
        · exact absurd hm.symm h
        · exact hm

theorem mem_of_lookup {m : Kmap} {k v : Nat}
    (h : lookup m k = some v) : (k, v) ∈ m := by
  induction m with
  | nil => simp [lookup_nil] at h
  | cons a t ih =>
    obtain ⟨ka, va⟩ := a
    rw [lookup_cons] at h
    by_cases hk : ka = k
    · rw [if_pos hk] at h
      simp only [Option.some.injEq] at h
      simp [hk, h]
    · rw [if_neg hk] at h
      exact List.mem_cons_of_mem _ (ih h)

theorem lookup_eq_none_of_lt {m : Kmap} {k : Nat} (hwf : m.WF)
    (h : ∀ pr ∈ m, k < pr.1) : lookup m k = none := by
  cases m with
  | nil => rfl
  | cons a t =>
    obtain ⟨ka, va⟩ := a
    rw [lookup_cons, if_neg (by have := h (ka, va) (by simp); omega)]
    apply lookup_eq_none_of_lt (by
      rw [WF, List.pairwise_cons] at hwf
      exact hwf.2)
    intro pr hpr
    exact h pr (by simp [hpr])

/-- Canonicity: well-formed maps with the same lookups are equal. -/
theorem ext {m m' : Kmap} (hwf : m.WF) (hwf' : m'.WF)
    (h : ∀ k, lookup m k = lookup m' k) : m = m' := by
  induction m generalizing m' with
  | nil =>
    cases m' with
    | nil => rfl
    | cons a t =>
      obtain ⟨ka, va⟩ := a
      have := h ka
      rw [lookup_nil, lookup_cons, if_pos rfl] at this
      exact absurd this.symm (by simp)
  | cons a t ih =>
    obtain ⟨ka, va⟩ := a
    cases m' with
    | nil =>
      have := h ka
      rw [lookup_nil, lookup_cons, if_pos rfl] at this
      exact absurd this (by simp)
    | cons a' t' =>
      obtain ⟨ka', va'⟩ := a'
      have hwt : WF t := by
        rw [WF, List.pairwise_cons] at hwf
        exact hwf.2
      have hwt' : WF t' := by
        rw [WF, List.pairwise_cons] at hwf'
        exact hwf'.2
      have hbound : ∀ pr ∈ t, ka < pr.1 := by
        rw [WF, List.pairwise_cons] at hwf
        exact fun pr hpr => hwf.1 pr hpr
      have hbound' : ∀ pr ∈ t', ka' < pr.1 := by
        rw [WF, List.pairwise_cons] at hwf'
        exact fun pr hpr => hwf'.1 pr hpr
      -- the heads coincide
      have hka : ka = ka' := by
        by_contra hne
        rcases Nat.lt_or_ge ka ka' with hlt | hge
        · have h1 := h ka
          rw [lookup_cons, if_pos rfl, lookup_cons, if_neg (by omega)] at h1
          rw [lookup_eq_none_of_lt hwt' (fun pr hpr => by
            have := hbound' pr hpr
            omega)] at h1
          exact absurd h1 (by simp)
        · have hlt' : ka' < ka := by omega
          have h1 := h ka'
          rw [lookup_cons, if_neg (by omega), lookup_cons, if_pos rfl] at h1
          rw [lookup_eq_none_of_lt hwt (fun pr hpr => by
            have := hbound pr hpr
            omega)] at h1
          exact absurd h1.symm (by simp)
      subst hka
      have hva : va = va' := by
        have h1 := h ka
        rw [lookup_cons, if_pos rfl, lookup_cons, if_pos rfl] at h1
        simpa using h1
      subst hva
      congr 1
      apply ih hwt hwt'
      intro k
      by_cases hk : ka = k
      · subst hk
        rw [lookup_eq_none_of_lt hwt (fun pr hpr => hbound pr hpr),
          lookup_eq_none_of_lt hwt' (fun pr hpr => hbound' pr hpr)]
      · have h1 := h k
        rw [lookup_cons, if_neg hk, lookup_cons, if_neg hk] at h1
        exact h1

theorem insert_lookup (m : Kmap) (k v k' : Nat) :
    lookup (Kmap.insert m k v) k' = if k = k' then some v else lookup m k' := by
  induction m with
  | nil =>
    show lookup [(k, v)] k' = _
    rw [lookup_cons, lookup_nil]
  | cons a t ih =>
    obtain ⟨ka, va⟩ := a
    simp only [Kmap.insert]
    by_cases h1 : k < ka
    · rw [if_pos h1, lookup_cons]
    · rw [if_neg h1]
      by_cases h2 : k = ka
      · rw [if_pos h2]
        subst h2
        rw [lookup_cons, lookup_cons]
        by_cases h3 : k = k' <;> simp [h3]
      · rw [if_neg h2, lookup_cons, ih, lookup_cons]
        by_cases h3 : ka = k' <;> by_cases h4 : k = k' <;> simp [h3, h4]
        exact absurd (h4.trans h3.symm) h2

theorem mem_insert {m : Kmap} {k v : Nat} {pr : Nat × Nat}
    (h : pr ∈ Kmap.insert m k v) : pr = (k, v) ∨ pr ∈ m := by
  induction m with
  | nil =>
    simp only [Kmap.insert] at h
    exact Or.inl (List.mem_singleton.mp h)
  | cons a t ih =>
    obtain ⟨ka, va⟩ := a
    simp only [Kmap.insert] at h
    by_cases h1 : k < ka
    · rw [if_pos h1] at h
      rcases List.mem_cons.mp h with h | h
      · exact Or.inl h
      · exact Or.inr h
    · rw [if_neg h1] at h
      by_cases h2 : k = ka
      · rw [if_pos h2] at h
        rcases List.mem_cons.mp h with h | h
        · exact Or.inl h
        · exact Or.inr (List.mem_cons_of_mem _ h)
      · rw [if_neg h2] at h
        rcases List.mem_cons.mp h with h | h
        · exact Or.inr (by rw [h]; exact List.mem_cons_self _ _)
        · rcases ih h with h | h
          · exact Or.inl h
          · exact Or.inr (List.mem_cons_of_mem _ h)

theorem insert_WF {m : Kmap} (hwf : m.WF) (k v : Nat) :
    (Kmap.insert m k v).WF := by
  induction m with
  | nil =>
    show WF [(k, v)]
    exact List.Pairwise.cons (fun pr hpr => by simp at hpr) List.Pairwise.nil
  | cons a t ih =>
    obtain ⟨ka, va⟩ := a
    rw [WF, List.pairwise_cons] at hwf
    simp only [Kmap.insert]
    by_cases h1 : k < ka
    · rw [if_pos h1, WF, List.pairwise_cons]
      refine ⟨?_, ?_⟩
      · intro pr hpr
        rcases List.mem_cons.mp hpr with h | h
        · rw [h]; exact h1
        · have := hwf.1 pr h
          show k < pr.1
          omega
      · rw [List.pairwise_cons]
        exact ⟨hwf.1, hwf.2⟩
    · rw [if_neg h1]
      by_cases h2 : k = ka
      · rw [if_pos h2, WF, List.pairwise_cons]
        subst h2
        exact ⟨hwf.1, hwf.2⟩
      · rw [if_neg h2, WF, List.pairwise_cons]
        refine ⟨?_, ih hwf.2⟩
        intro pr hpr
        rcases mem_insert hpr with h | h
        · rw [h]; show ka < k; omega
        · exact hwf.1 pr h

theorem merge_nil_right (m : Kmap) : Kmap.merge m [] = m := rfl

theorem merge_cons (m : Kmap) (a : Nat × Nat) (t : List (Nat × Nat)) :
    Kmap.merge m (a :: t) = Kmap.merge (Kmap.insert m a.1 a.2) t := rfl

theorem merge_WF {m : Kmap} (hwf : m.WF) (adds : Kmap) :
    (Kmap.merge m adds).WF := by
  induction adds generalizing m with
  | nil => exact hwf
  | cons a t ih =>
    rw [merge_cons]
    exact ih (insert_WF hwf a.1 a.2)

theorem mem_merge {m adds : Kmap} {pr : Nat × Nat}
    (h : pr ∈ Kmap.merge m adds) : pr ∈ m ∨ pr ∈ adds := by
  induction adds generalizing m with
  | nil => exact Or.inl h
  | cons a t ih =>
    rw [merge_cons] at h
    rcases ih h with h | h
    · rcases mem_insert h with h | h
      · exact Or.inr (by rw [h]; exact List.mem_cons_self _ _)
      · exact Or.inl h
    · exact Or.inr (List.mem_cons_of_mem _ h)

theorem merge_lookup (adds : Kmap) : ∀ (m : Kmap), adds.WF → ∀ k,
    lookup (Kmap.merge m adds) k = (lookup adds k).or (lookup m k) := by
  induction adds with
  | nil =>
    intro m _ k
    rw [merge_nil_right, lookup_nil]
    rfl
  | cons a t ih =>
    intro m hadds k
    obtain ⟨ka, va⟩ := a
    rw [WF, List.pairwise_cons] at hadds
    rw [merge_cons, ih (Kmap.insert m ka va) hadds.2 k, insert_lookup, lookup_cons]
    by_cases h : ka = k
    · rw [if_pos h, if_pos h,
        lookup_eq_none_of_lt hadds.2 (fun pr hpr => by
          have := hadds.1 pr hpr
          omega)]
      rfl
    · rw [if_neg h, if_neg h]

theorem lookup_of_mem_wf {m : Kmap} (hwf : m.WF) {k v : Nat}
    (h : (k, v) ∈ m) : lookup m k = some v := by
  induction m with
  | nil => simp at h
  | cons a t ih =>
    obtain ⟨ka, va⟩ := a
    rw [WF, List.pairwise_cons] at hwf
    rw [lookup_cons]
    rcases List.mem_cons.mp h with h | h
    · simp only [Prod.mk.injEq] at h
      rw [if_pos h.1.symm, h.2]
    · have hlt : ka < k := hwf.1 (k, v) h
      rw [if_neg (by omega)]
      exact ih hwf.2 h

theorem merge_assoc {a b c : Kmap} (ha : a.WF) (hb : b.WF) (hc : c.WF) :
    Kmap.merge (Kmap.merge a b) c = Kmap.merge a (Kmap.merge b c) := by
  apply ext (merge_WF (merge_WF ha b) c) (merge_WF ha (Kmap.merge b c))
  intro k
  rw [merge_lookup c (Kmap.merge a b) hc k, merge_lookup b a hb k,
    merge_lookup (Kmap.merge b c) a (merge_WF hb c) k, merge_lookup c b hc k]
  cases Kmap.lookup c k <;> rfl

theorem merge_nil_left {m : Kmap} (hm : m.WF) : Kmap.merge [] m = m := by
  apply ext (merge_WF List.Pairwise.nil m) hm
  intro k
  rw [merge_lookup m [] hm k, lookup_nil]
  cases Kmap.lookup m k <;> rfl

theorem foldl_merge_WF (ms : List Kmap) : ∀ (R : Kmap), R.WF →
    (ms.foldl Kmap.merge R).WF := by
  induction ms with
  | nil => intro R h; exact h
  | cons m t ih => intro R h; exact ih _ (merge_WF h m)

theorem unionAll_WF (ms : List Kmap) : (Mpc.unionAll ms).WF :=
  foldl_merge_WF ms [] List.Pairwise.nil

theorem foldl_merge (ms : List Kmap) : ∀ (R : Kmap), R.WF → (∀ m ∈ ms, m.WF) →
    ms.foldl Kmap.merge R = Kmap.merge R (Mpc.unionAll ms) := by
  induction ms with
  | nil => intro R _ _; rfl
  | cons m t ih =>
    intro R hR hms
    have hm : m.WF := hms m (List.mem_cons_self _ _)
    have hts : ∀ m' ∈ t, m'.WF := fun m' h => hms m' (List.mem_cons_of_mem _ h)
    show t.foldl Kmap.merge (Kmap.merge R m) = _
    rw [ih (Kmap.merge R m) (merge_WF hR m) hts]
    have hu : Mpc.unionAll (m :: t) = Kmap.merge m (Mpc.unionAll t) := by
      show t.foldl Kmap.merge (Kmap.merge [] m) = _
      rw [merge_nil_left hm, ih m hm hts]
    rw [hu, merge_assoc hR hm (unionAll_WF t)]

theorem unionAll_cons {m : Kmap} (hm : m.WF) (t : List Kmap)
    (ht : ∀ m' ∈ t, m'.WF) :
    Mpc.unionAll (m :: t) = Kmap.merge m (Mpc.unionAll t) := by
  show t.foldl Kmap.merge (Kmap.merge [] m) = _
  rw [merge_nil_left hm, foldl_merge t m hm ht]

theorem mem_foldl_merge (ms : List Kmap) : ∀ (R : Kmap) (pr : Nat × Nat),
    pr ∈ ms.foldl Kmap.merge R → pr ∈ R ∨ ∃ m ∈ ms, pr ∈ m := by
  induction ms with
  | nil => intro R pr h; exact Or.inl h
  | cons m t ih =>
    intro R pr h
    rcases ih (Kmap.merge R m) pr h with h | ⟨m', hm', hpr⟩
    · rcases mem_merge h with h | h
      · exact Or.inl h
      · exact Or.inr ⟨m, List.mem_cons_self _ _, h⟩
    · exact Or.inr ⟨m', List.mem_cons_of_mem _ hm', hpr⟩

theorem mem_unionAll {ms : List Kmap} {pr : Nat × Nat}
    (h : pr ∈ Mpc.unionAll ms) : ∃ m ∈ ms, pr ∈ m := by
  rcases mem_foldl_merge ms [] pr h with h | h
  · simp at h
  · exact h

theorem lookup_merge_isSome {m : Kmap} (adds : Kmap) {k : Nat}
    (h : (lookup m k).isSome) : (lookup (Kmap.merge m adds) k).isSome := by
  induction adds generalizing m with
  | nil => exact h
  | cons a t ih =>
    rw [merge_cons]
    apply ih
    rw [insert_lookup]
    by_cases hk : a.1 = k
    · rw [if_pos hk]; rfl
    · rw [if_neg hk]; exact h

theorem merge_merge_self {R adds : Kmap} (hR : R.WF) :
    Kmap.merge R (Kmap.merge R adds) = Kmap.merge R adds := by
  apply ext (merge_WF hR (Kmap.merge R adds)) (merge_WF hR adds)
  intro k
  rw [merge_lookup (Kmap.merge R adds) R (merge_WF hR adds) k]
  cases hm : Kmap.lookup (Kmap.merge R adds) k with
  | some v => rfl
  | none =>
    cases hr : Kmap.lookup R k with
    | none => rfl
    | some v =>
      have h2 := lookup_merge_isSome adds
        (show (Kmap.lookup R k).isSome by rw [hr]; rfl)
      rw [hm] at h2
      simp at h2

theorem eq_of_sub_of_size_le {m m' : Kmap} (hwf : m.WF) (hwf' : m'.WF)
    (hsub : ∀ k v, lookup m k = some v → lookup m' k = some v)
    (hsize : m'.size ≤ m.size) : m = m' := by
  have hkeys : m.map Prod.fst ⊆ m'.map Prod.fst := by
    intro k hk
    rw [← lookup_isSome_iff_mem_keys] at hk ⊢
    obtain ⟨v, hv⟩ := Option.isSome_iff_exists.mp hk
    rw [hsub k v hv]
    rfl
  have hnd := keysNodup_of_wf hwf
  have hsp := List.subperm_of_subset hnd hkeys
  have hperm : (m.map Prod.fst).Perm (m'.map Prod.fst) := by
    apply hsp.perm_of_length_le
    simpa using hsize
  apply ext hwf hwf'
  intro k
  cases hmk : lookup m k with
  | some v => rw [hsub k v hmk]
  | none =>
    cases hmk' : lookup m' k with
    | none => rfl
    | some v' =>
      have h1 : k ∈ m'.map Prod.fst := by
        rw [← lookup_isSome_iff_mem_keys, hmk']
        rfl
      have h2 : k ∈ m.map Prod.fst := hperm.mem_iff.mpr h1
      rw [← lookup_isSome_iff_mem_keys, hmk] at h2
      simp at h2

end Mpc.Kmap

/-! ## The addition-process state machine -/

theorem agrees_lookup {pool : List Mpc.Kmap} (h : Mpc.Agrees pool)
    {m₁ m₂ : Mpc.Kmap} (h₁ : m₁ ∈ pool) (h₂ : m₂ ∈ pool) {k v₁ v₂ : Nat}
    (hv₁ : Mpc.Kmap.lookup m₁ k = some v₁)
    (hv₂ : Mpc.Kmap.lookup m₂ k = some v₂) : v₁ = v₂ :=
  h m₁ h₁ m₂ h₂ (k, v₁) (Mpc.Kmap.mem_of_lookup hv₁)
    (k, v₂) (Mpc.Kmap.mem_of_lookup hv₂) rfl

theorem mem_pool_of_merge {R m : Mpc.Kmap} {ms : List Mpc.Kmap} {mi : Mpc.Kmap}
    (h : mi ∈ Mpc.Kmap.merge R m :: ms) {pr : Nat × Nat} (hpr : pr ∈ mi) :
    ∃ mo ∈ R :: m :: ms, pr ∈ mo := by
  rcases List.mem_cons.mp h with h | h
  · subst h
    rcases Mpc.Kmap.mem_merge hpr with h | h
    · exact ⟨R, List.mem_cons_self _ _, h⟩
    · exact ⟨m, List.mem_cons_of_mem _ (List.mem_cons_self _ _), h⟩
  · exact ⟨mi, List.mem_cons_of_mem _ (List.mem_cons_of_mem _ h), hpr⟩

theorem agrees_merge_cons {R m : Mpc.Kmap} {ms : List Mpc.Kmap}
    (h : Mpc.Agrees (R :: m :: ms)) :
    Mpc.Agrees (Mpc.Kmap.merge R m :: ms) := by
  intro m₁ h₁ m₂ h₂ pr hpr pr' hpr' hk
  obtain ⟨mo₁, ho₁, hp₁⟩ := mem_pool_of_merge h₁ hpr
  obtain ⟨mo₂, ho₂, hp₂⟩ := mem_pool_of_merge h₂ hpr'
  exact h mo₁ ho₁ mo₂ ho₂ pr hp₁ pr' hp₂ hk

theorem applyReceivedShares_not_awaiting (pc : Nat) (P : Mpc.AdditionProcess)
    (adds : Mpc.Kmap) (h : P.state ≠ .awaitingPeerShares) :
    Mpc.applyReceivedShares P adds pc =
      .error "invalid process state when creating receive shares request" := by
  have hnew : Mpc.ReceiveSharesRequest.new P adds pc = .error .invalidState := by
    simp [Mpc.ReceiveSharesRequest.new, h]
  simp [Mpc.applyReceivedShares, hnew]

theorem applyReceivedShares_awaiting_lt (pc : Nat) (P : Mpc.AdditionProcess)
    (adds : Mpc.Kmap) (h : P.state = .awaitingPeerShares)
    (hwf : P.received_shares.WF)
    (hsz : (Mpc.Kmap.merge P.received_shares adds).size < pc) :
    Mpc.applyReceivedShares P adds pc =
      .ok { P with received_shares := Mpc.Kmap.merge P.received_shares adds } := by
  have hnew : Mpc.ReceiveSharesRequest.new P adds pc =
      .ok ⟨P.id, Mpc.Kmap.merge P.received_shares adds, none⟩ := by
    simp [Mpc.ReceiveSharesRequest.new, h, hsz]
  simp [Mpc.applyReceivedShares, hnew, Mpc.receive_shares, h]
  exact Mpc.Kmap.merge_merge_self hwf

theorem applyReceivedShares_awaiting_ge (pc : Nat) (P : Mpc.AdditionProcess)
    (adds : Mpc.Kmap) (h : P.state = .awaitingPeerShares)
    (hwf : P.received_shares.WF)
    (hsz : ¬ (Mpc.Kmap.merge P.received_shares adds).size < pc) :
    Mpc.applyReceivedShares P adds pc =
      .ok { P with
        received_shares := Mpc.Kmap.merge P.received_shares adds,
        received_shares_sums := [],
        state := .awaitingPeerSharesSum
          (((Mpc.Kmap.merge P.received_shares adds).valuesSum + P.own_share)
            % 2 ^ 128 % Mpc.PRIME) } := by
  have hnew : Mpc.ReceiveSharesRequest.new P adds pc =
      .ok ⟨P.id, Mpc.Kmap.merge P.received_shares adds,
        some (((Mpc.Kmap.merge P.received_shares adds).valuesSum + P.own_share)
          % 2 ^ 128 % Mpc.PRIME)⟩ := by
    simp [Mpc.ReceiveSharesRequest.new, h, hsz]
  simp [Mpc.applyReceivedShares, hnew, Mpc.receive_shares, h]
  exact Mpc.Kmap.merge_merge_self hwf

theorem applyStep_awaiting (pc : Nat) (P : Mpc.AdditionProcess) (adds : Mpc.Kmap)
    (h : P.state = .awaitingPeerShares) (hwf : P.received_shares.WF) :
    Mpc.applyStep pc P adds =
      Mpc.stepResult pc P (Mpc.Kmap.merge P.received_shares adds) := by
  by_cases hsz : (Mpc.Kmap.merge P.received_shares adds).size < pc
  · unfold Mpc.applyStep
    rw [applyReceivedShares_awaiting_lt pc P adds h hwf hsz]
    simp only [Mpc.stepResult]
    rw [if_pos hsz]
  · unfold Mpc.applyStep
    rw [applyReceivedShares_awaiting_ge pc P adds h hwf hsz]
    simp only [Mpc.stepResult]
    rw [if_neg hsz]

theorem applyStep_not_awaiting (pc : Nat) (P : Mpc.AdditionProcess)
    (adds : Mpc.Kmap) (h : P.state ≠ .awaitingPeerShares) :
    Mpc.applyStep pc P adds = P := by
  unfold Mpc.applyStep
  rw [applyReceivedShares_not_awaiting pc P adds h]

theorem stepResult_set_received (pc : Nat) (P : Mpc.AdditionProcess)
    (X A : Mpc.Kmap) :
    Mpc.stepResult pc { P with received_shares := X } A =
      Mpc.stepResult pc P A := rfl

theorem foldl_applyStep_frozen (pc : Nat) (ms : List Mpc.Kmap) :
    ∀ (P : Mpc.AdditionProcess), P.state ≠ .awaitingPeerShares →
      ms.foldl (Mpc.applyStep pc) P = P := by
  induction ms with
  | nil => intro P _; rfl
  | cons m t ih =>
    intro P h
    show t.foldl (Mpc.applyStep pc) (Mpc.applyStep pc P m) = P
    rw [applyStep_not_awaiting pc P m h, ih P h]

theorem valuesSum_le {m : Mpc.Kmap} (hv : ∀ pr ∈ m, pr.2 < 2 ^ 64) :
    Mpc.Kmap.valuesSum m ≤ m.length * (2 ^ 64 - 1) := by
  induction m with
  | nil => simp [Mpc.Kmap.valuesSum]
  | cons a t ih =>
    have h1 : a.2 ≤ 2 ^ 64 - 1 := by
      have := hv a (List.mem_cons_self _ _)
      omega
    have h2 := ih (fun pr h => hv pr (List.mem_cons_of_mem _ h))
    show a.2 + Mpc.Kmap.valuesSum t ≤ (t.length + 1) * (2 ^ 64 - 1)
    have h3 : (t.length + 1) * (2 ^ 64 - 1) =
        t.length * (2 ^ 64 - 1) + (2 ^ 64 - 1) := by ring
    omega

theorem shares_sum_no_wrap {m : Mpc.Kmap} (hv : ∀ pr ∈ m, pr.2 < 2 ^ 64)
    (hlen : m.length ≤ 256) (own : Nat) (hown : own < 2 ^ 64) :
    (Mpc.Kmap.valuesSum m + own) % 2 ^ 128 % Mpc.PRIME =
      (own + Mpc.Kmap.valuesSum m) % Mpc.PRIME := by
  have h1 := valuesSum_le hv
  have h2 : Mpc.Kmap.valuesSum m + own < 2 ^ 128 := by
    have h3 : m.length * (2 ^ 64 - 1) ≤ 256 * (2 ^ 64 - 1) :=
      Nat.mul_le_mul_right _ hlen
    omega
  rw [Nat.mod_eq_of_lt h2, Nat.add_comm]

/-- C5: `apply_received_shares` (request construction plus repository update)
on an awaiting-shares process merges the additions into `received_shares`;
exactly when the merged map holds `peers_count` entries it transitions to
`AwaitingPeerSharesSum` with
`shares_sum = (own_share + Σ received_shares.values()) mod p`, preserving the
merged `received_shares` (and starting from a fresh shares-sums buffer); in
any other state it fails with a wrong-state error and, as a state
transformer, leaves the stored process unchanged.  The `u64` typing of the
shares and the `u8` typing of the peer ids enter as explicit bounds, and the
spec's precondition that additions only carry known peer ids appears as the
bound `size ≤ peers_count`. -/
theorem apply_received_shares_claim (pc : Nat) (P : Mpc.AdditionProcess)
    (adds : Mpc.Kmap)
    (hwf : P.received_shares.WF)
    (hown : P.own_share < 2 ^ 64)
    (hvals : ∀ pr ∈ Mpc.Kmap.merge P.received_shares adds, pr.2 < 2 ^ 64)
    (hcard : (Mpc.Kmap.merge P.received_shares adds).size ≤ 256)
    (hpc : (Mpc.Kmap.merge P.received_shares adds).size ≤ pc) :
    (P.state ≠ .awaitingPeerShares →
      Mpc.applyReceivedShares P adds pc =
        .error "invalid process state when creating receive shares request" ∧
      Mpc.applyStep pc P adds = P) ∧
    (P.state = .awaitingPeerShares →
      (Mpc.Kmap.merge P.received_shares adds).size = pc →
      Mpc.applyReceivedShares P adds pc = .ok { P with
        received_shares := Mpc.Kmap.merge P.received_shares adds,
        received_shares_sums := [],
        state := .awaitingPeerSharesSum
          ((P.own_share + (Mpc.Kmap.merge P.received_shares adds).valuesSum)
            % Mpc.PRIME) }) ∧
    (P.state = .awaitingPeerShares →
      (Mpc.Kmap.merge P.received_shares adds).size ≠ pc →
      Mpc.applyReceivedShares P adds pc =
        .ok { P with received_shares := Mpc.Kmap.merge P.received_shares adds }) := by
  refine ⟨?_, ?_, ?_⟩
  · intro h
    exact ⟨applyReceivedShares_not_awaiting pc P adds h,
      applyStep_not_awaiting pc P adds h⟩
  · intro h hsz
    have hge : ¬ (Mpc.Kmap.merge P.received_shares adds).size < pc := by omega
    rw [applyReceivedShares_awaiting_ge pc P adds h hwf hge,
      shares_sum_no_wrap hvals hcard P.own_share hown]
  · intro h hsz
    have hlt : (Mpc.Kmap.merge P.received_shares adds).size < pc := by omega
    exact applyReceivedShares_awaiting_lt pc P adds h hwf hlt

theorem apply_received_shares_claim_witness :
    Mpc.applyReceivedShares
        ⟨0, 9, 4, [], [(2, 5)], [(7, 8)], .awaitingPeerShares⟩ [(3, 6)] 2 =
      .ok ⟨0, 9, 4, [], [(2, 5), (3, 6)], [], .awaitingPeerSharesSum 15⟩ :=
  (apply_received_shares_claim 2
    ⟨0, 9, 4, [], [(2, 5)], [(7, 8)], .awaitingPeerShares⟩ [(3, 6)]
    (by decide) (by decide) (by decide) (by decide) (by decide)).2.1 rfl (by decide)

/-- C4: idempotence under retransmission.  Starting from an awaiting-shares
process, a nonempty sequence of `apply_received_shares` calls produces
exactly the process obtained by one call carrying the cumulative union of
the addition maps, provided the maps are canonical, re-deliveries repeat the
recorded share (a pool agreement), and the union stays within `peers_count`
(the spec's precondition that only known peer ids occur); in particular a
re-delivered `(peer_id, share)` silently overwrites the entry and changes
nothing. -/
theorem apply_received_shares_idempotent (pc : Nat) (ms : List Mpc.Kmap) :
    ∀ (P : Mpc.AdditionProcess),
      P.state = .awaitingPeerShares →
      P.received_shares.WF →
      (∀ m ∈ ms, m.WF) →
      Mpc.Agrees (P.received_shares :: ms) →
      (Mpc.Kmap.merge P.received_shares (Mpc.unionAll ms)).size ≤ pc →
      ms ≠ [] →
      ms.foldl (Mpc.applyStep pc) P = Mpc.applyStep pc P (Mpc.unionAll ms) := by
  induction ms with
  | nil =>
    intro P _ _ _ _ _ hne
    exact absurd rfl hne
  | cons m t ih =>
    intro P hstate hwf hwfs hagree hsz hne
    have hm : m.WF := hwfs m (List.mem_cons_self _ _)
    have hts : ∀ m' ∈ t, m'.WF := fun m' h => hwfs m' (List.mem_cons_of_mem _ h)
    have hAwf : (Mpc.Kmap.merge P.received_shares m).WF := Mpc.Kmap.merge_WF hwf m
    have hUcons : Mpc.Kmap.merge (Mpc.Kmap.merge P.received_shares m) (Mpc.unionAll t)
        = Mpc.Kmap.merge P.received_shares (Mpc.unionAll (m :: t)) := by
      rw [Mpc.Kmap.unionAll_cons hm t hts,
        Mpc.Kmap.merge_assoc hwf hm (Mpc.Kmap.unionAll_WF t)]
    by_cases ht : t = []
    · subst ht
      have hu1 : Mpc.unionAll [m] = m := by
        show Mpc.Kmap.merge [] m = m
        exact Mpc.Kmap.merge_nil_left hm
      show Mpc.applyStep pc P m = Mpc.applyStep pc P (Mpc.unionAll [m])
      rw [hu1]
    · by_cases hlt : (Mpc.Kmap.merge P.received_shares m).size < pc
      · -- the first call does not reach the transition
        have hstep : Mpc.applyStep pc P m =
            { P with received_shares := Mpc.Kmap.merge P.received_shares m } := by
          rw [applyStep_awaiting pc P m hstate hwf]
          simp only [Mpc.stepResult]
          rw [if_pos hlt]
        have hP₁ := ih { P with received_shares := Mpc.Kmap.merge P.received_shares m }
          hstate hAwf hts (agrees_merge_cons hagree)
          (by show (Mpc.Kmap.merge (Mpc.Kmap.merge P.received_shares m)
                (Mpc.unionAll t)).size ≤ pc
              rw [hUcons]; exact hsz) ht
        have e2 : Mpc.applyStep pc
              { P with received_shares := Mpc.Kmap.merge P.received_shares m }
              (Mpc.unionAll t)
            = Mpc.stepResult pc
                { P with received_shares := Mpc.Kmap.merge P.received_shares m }
                (Mpc.Kmap.merge (Mpc.Kmap.merge P.received_shares m) (Mpc.unionAll t)) :=
          applyStep_awaiting pc _ (Mpc.unionAll t) hstate hAwf
        calc (m :: t).foldl (Mpc.applyStep pc) P
            = t.foldl (Mpc.applyStep pc)
                { P with received_shares := Mpc.Kmap.merge P.received_shares m } := by
              show t.foldl (Mpc.applyStep pc) (Mpc.applyStep pc P m) = _
              rw [hstep]
          _ = Mpc.applyStep pc
                { P with received_shares := Mpc.Kmap.merge P.received_shares m }
                (Mpc.unionAll t) := hP₁
          _ = Mpc.stepResult pc P
                (Mpc.Kmap.merge P.received_shares (Mpc.unionAll (m :: t))) := by
              rw [e2, stepResult_set_received, hUcons]
          _ = Mpc.applyStep pc P (Mpc.unionAll (m :: t)) :=
              (applyStep_awaiting pc P (Mpc.unionAll (m :: t)) hstate hwf).symm
      · -- the first call reaches the transition; later calls are rejected
        have hkey : Mpc.Kmap.merge P.received_shares m
            = Mpc.Kmap.merge P.received_shares (Mpc.unionAll (m :: t)) := by
          apply Mpc.Kmap.eq_of_sub_of_size_le hAwf
            (Mpc.Kmap.merge_WF hwf (Mpc.unionAll (m :: t)))
          · intro k v hv
            rw [← hUcons,
              Mpc.Kmap.merge_lookup (Mpc.unionAll t)
                (Mpc.Kmap.merge P.received_shares m) (Mpc.Kmap.unionAll_WF t) k]
            cases hW : Mpc.Kmap.lookup (Mpc.unionAll t) k with
            | none => rw [hv]; rfl
            | some v' =>
              obtain ⟨mi, hmi, hpri⟩ := Mpc.Kmap.mem_unionAll (Mpc.Kmap.mem_of_lookup hW)
              have hmem : (k, v) ∈ Mpc.Kmap.merge P.received_shares m :=
                Mpc.Kmap.mem_of_lookup hv
              have hvv : v = v' := by
                rcases Mpc.Kmap.mem_merge hmem with h2 | h2
                · exact hagree P.received_shares (List.mem_cons_self _ _)
                    mi (List.mem_cons_of_mem _ (List.mem_cons_of_mem _ hmi))
                    (k, v) h2 (k, v') hpri rfl
                · exact hagree m (List.mem_cons_of_mem _ (List.mem_cons_self _ _))
                    mi (List.mem_cons_of_mem _ (List.mem_cons_of_mem _ hmi))
                    (k, v) h2 (k, v') hpri rfl
              rw [hvv]
              rfl
          · have h1 : pc ≤ (Mpc.Kmap.merge P.received_shares m).size :=
              Nat.le_of_not_lt hlt
            omega
        have hstep : Mpc.applyStep pc P m = Mpc.stepResult pc P
            (Mpc.Kmap.merge P.received_shares m) :=
          applyStep_awaiting pc P m hstate hwf
        have hfrozen : Mpc.stepResult pc P (Mpc.Kmap.merge P.received_shares m)
            = { P with
                received_shares := Mpc.Kmap.merge P.received_shares m,
                received_shares_sums := [],
                state := .awaitingPeerSharesSum
                  (((Mpc.Kmap.merge P.received_shares m).valuesSum + P.own_share)
                    % 2 ^ 128 % Mpc.PRIME) } := by
          simp only [Mpc.stepResult]
          rw [if_neg hlt]
        calc (m :: t).foldl (Mpc.applyStep pc) P
            = t.foldl (Mpc.applyStep pc)
                (Mpc.stepResult pc P (Mpc.Kmap.merge P.received_shares m)) := by
              show t.foldl (Mpc.applyStep pc) (Mpc.applyStep pc P m) = _
              rw [hstep]
          _ = Mpc.stepResult pc P (Mpc.Kmap.merge P.received_shares m) := by
              rw [hfrozen]
              exact foldl_applyStep_frozen pc t _ (by simp)
          _ = Mpc.applyStep pc P (Mpc.unionAll (m :: t)) := by
              rw [hkey]
              exact (applyStep_awaiting pc P (Mpc.unionAll (m :: t)) hstate hwf).symm

theorem apply_received_shares_idempotent_witness :
    List.foldl (Mpc.applyStep 2)
        ⟨0, 9, 4, [], [], [], .awaitingPeerShares⟩ [[(2, 5)], [(2, 5), (3, 6)]] =
      Mpc.applyStep 2 ⟨0, 9, 4, [], [], [], .awaitingPeerShares⟩
        (Mpc.unionAll [[(2, 5)], [(2, 5), (3, 6)]]) :=
  apply_received_shares_idempotent 2 [[(2, 5)], [(2, 5), (3, 6)]]
    ⟨0, 9, 4, [], [], [], .awaitingPeerShares⟩ rfl (by decide) (by decide)
    (by decide) (by decide) (by decide)

/-! ## Shares-sums reconstruction, dispatcher status handling, outbox attempts -/

/-- C1: the reconstruction uses the wrong own coordinate.
`ReceiveSharesSumsRequest::new` pushes
`Share { point: own_peer_id, value: process.own_share }` instead of the
`shares_sum` stored in the `AwaitingPeerSharesSum` state.  On a process with
`own_share = 3` and `shares_sum = 5` holding the peer sum `(2, 7)`, the code
completes with `final_sum = 1000000006` (the line through `(1, 3)` and
`(2, 7)` evaluated at `0`), whereas the specified
`recover_secret({(own_peer_id, shares_sum)} ∪ received_shares_sums, p)`
returns `3`. -/
theorem apply_received_shares_sums_divergence :
    Mpc.applyReceivedSharesSums
        ⟨0, 0, 3, [], [], [(2, 7)], .awaitingPeerSharesSum 5⟩ [] 1 1 =
      .ok ⟨0, 0, 3, [], [], [(2, 7)], .completed 5 1000000006⟩ ∧
    Mpc.recover_secret [⟨1, 5⟩, ⟨2, 7⟩] Mpc.PRIME = .ok 3 ∧
    (1000000006 : Nat) ≠ 3 :=
  ⟨rfl, rfl, by decide⟩

/-- C3 counterexample: a dispatch whose HTTP POST completes with status 500
(not 2xx) yields `Ok(())`, so `poll_and_dispatch` dequeues the item among the
success ids instead of treating it as a failed delivery — even at
`attempts = 4`, where the claim would have it rescheduled. -/
theorem dispatch_non2xx_counterexample :
    Mpc.dispatch (.response 500) = .ok () ∧
    Mpc.isSuccessStatus 500 = false ∧
    Mpc.pollPartition [(7, 4)] [Mpc.dispatch (.response 500)] = ⟨[7], [], []⟩ := by
  refine ⟨rfl, rfl, rfl⟩

/-- C3 (amended): `PeerCommunicationOutboxDispatcher::dispatch` only fails on
an I/O (send) error; a received response is treated as a successful delivery
regardless of its status, merely logging non-2xx, so the item is dequeued
among the success ids.  `HttpPeerClient::notify_new_process`, by contrast,
does error on a non-2xx status. -/
theorem dispatch_non2xx_amended (status : Nat)
    (h : Mpc.isSuccessStatus status = false) (id attempts : Nat) :
    Mpc.dispatch (.response status) = .ok () ∧
    Mpc.notify_new_process (.response status) = .error "Failed to notify peer" ∧
    Mpc.pollPartition [(id, attempts)] [Mpc.dispatch (.response status)] =
      ⟨[id], [], []⟩ ∧
    (∀ r, Mpc.dispatch r = .error "sending outbox item to peer" ↔ r = .ioError) := by
  refine ⟨rfl, ?_, rfl, ?_⟩
  · simp [Mpc.notify_new_process, h]
  · intro r
    cases r <;> simp [Mpc.dispatch]

theorem dispatch_non2xx_amended_witness :
    Mpc.isSuccessStatus 500 = false ∧
    (Mpc.dispatch (.response 500) = .ok () ∧
     Mpc.notify_new_process (.response 500) = .error "Failed to notify peer" ∧
     Mpc.pollPartition [(7, 0)] [Mpc.dispatch (.response 500)] = ⟨[7], [], []⟩ ∧
     (∀ r, Mpc.dispatch r = .error "sending outbox item to peer" ↔ r = .ioError)) :=
  ⟨by decide, dispatch_non2xx_amended 500 (by decide) 7 0⟩

theorem outbox_reach_attempts_le {s : List Mpc.OutboxItem}
    (h : Mpc.OutboxReach s) : ∀ i ∈ s, i.attempts ≤ 5 := by
  induction h with
  | init => intro i hi; simp at hi
  | enqueue new hr h0 hfresh hnd ih =>
    intro i hi
    rcases List.mem_append.mp hi with hi | hi
    · exact ih i hi
    · rw [h0 i hi]; omega
  | dispatch f hr ih =>
    intro i hi
    obtain ⟨a, ha, hmatch⟩ := List.mem_filterMap.mp hi
    cases hf : f a with
    | success => rw [hf] at hmatch; simp at hmatch
    | idle =>
      rw [hf] at hmatch
      simp at hmatch
      rw [← hmatch]
      exact ih a ha
    | failed =>
      rw [hf] at hmatch
      by_cases h5 : 5 ≤ a.attempts
      · simp [h5] at hmatch
      · simp [h5] at hmatch
        rw [← hmatch]
        show a.attempts + 1 ≤ 5
        omega

theorem dispatchStep_ids_sublist (s : List Mpc.OutboxItem)
    (f : Mpc.OutboxItem → Mpc.DispatchOutcome) :
    ((Mpc.dispatchStep s f).map Mpc.OutboxItem.id).Sublist
      (s.map Mpc.OutboxItem.id) := by
  induction s with
  | nil => simp [Mpc.dispatchStep]
  | cons a t ih =>
    show ((List.filterMap _ (a :: t)).map _).Sublist _
    rw [List.filterMap_cons]
    cases hf : f a with
    | success =>
      simp only [hf]
      exact ih.trans (List.sublist_cons_self _ _)
    | idle =>
      simp only [hf, List.map_cons]
      exact List.Sublist.cons₂ _ ih
    | failed =>
      by_cases h5 : 5 ≤ a.attempts
      · simp only [hf, if_pos h5]
        exact ih.trans (List.sublist_cons_self _ _)
      · simp only [hf, if_neg h5, List.map_cons]
        exact List.Sublist.cons₂ _ ih

theorem outbox_reach_nodup {s : List Mpc.OutboxItem} (h : Mpc.OutboxReach s) :
    (s.map Mpc.OutboxItem.id).Nodup := by
  induction h with
  | init => simp
  | enqueue new hr h0 hfresh hnd ih =>
    rw [List.map_append, List.nodup_append]
    refine ⟨ih, hnd, ?_⟩
    intro a ha hb
    obtain ⟨j, hj, hja⟩ := List.mem_map.mp ha
    obtain ⟨i, hi, hia⟩ := List.mem_map.mp hb
    exact hfresh i hi j hj (by rw [hia, hja])
  | dispatch f hr ih =>
    exact List.Nodup.sublist (dispatchStep_ids_sublist _ f) ih

/-- C6 counterexample: an item that has failed five times is reachable in the
outbox with `attempts = 5` — it is retained, not removed; only a sixth
failure drops it.  (The fifth failure happens at recorded `attempts = 4 < 5`,
so the item is re-enqueued with `attempts = 5`.) -/
theorem outbox_retention_counterexample :
    Mpc.OutboxReach [⟨0, 5⟩] ∧
    Mpc.dispatchStep [⟨0, 4⟩] (fun _ => Mpc.DispatchOutcome.failed) = [⟨0, 5⟩] ∧
    Mpc.dispatchStep [⟨0, 5⟩] (fun _ => Mpc.DispatchOutcome.failed) = [] := by
  refine ⟨?_, rfl, rfl⟩
  have h0 : Mpc.OutboxReach [⟨0, 0⟩] :=
    Mpc.OutboxReach.enqueue [⟨0, 0⟩] Mpc.OutboxReach.init
      (by decide) (by decide) (by decide)
  exact Mpc.OutboxReach.dispatch (fun _ => Mpc.DispatchOutcome.failed)
    (Mpc.OutboxReach.dispatch (fun _ => Mpc.DispatchOutcome.failed)
      (Mpc.OutboxReach.dispatch (fun _ => Mpc.DispatchOutcome.failed)
        (Mpc.OutboxReach.dispatch (fun _ => Mpc.DispatchOutcome.failed)
          (Mpc.OutboxReach.dispatch (fun _ => Mpc.DispatchOutcome.failed) h0))))

/-- C6 (amended): in every reachable outbox state, every stored item has
`attempts ≤ 5`; and a failing item whose recorded attempts have reached `5`
is abandoned by the round (no item with its id survives the dispatch) rather
than re-enqueued.  An item reaching 5 failed attempts, however, is retained
with `attempts = 5` until that further failure. -/
theorem outbox_attempts_invariant {s : List Mpc.OutboxItem}
    (h : Mpc.OutboxReach s) :
    (∀ i ∈ s, i.attempts ≤ 5) ∧
    (∀ (f : Mpc.OutboxItem → Mpc.DispatchOutcome) (i : Mpc.OutboxItem),
      i ∈ s → f i = .failed → 5 ≤ i.attempts →
      ∀ j ∈ Mpc.dispatchStep s f, j.id ≠ i.id) := by
  refine ⟨outbox_reach_attempts_le h, ?_⟩
  intro f i hi hf h5 j hj hij
  obtain ⟨a, ha, hmatch⟩ := List.mem_filterMap.mp hj
  have hnd := outbox_reach_nodup h
  have hja : j.id = a.id := by
    cases hfa : f a with
    | success => rw [hfa] at hmatch; simp at hmatch
    | idle => rw [hfa] at hmatch; simp at hmatch; rw [← hmatch]
    | failed =>
      rw [hfa] at hmatch
      by_cases h5a : 5 ≤ a.attempts
      · simp [h5a] at hmatch
      · simp [h5a] at hmatch
        rw [← hmatch]
  have hai : a = i := by
    apply List.inj_on_of_nodup_map hnd ha hi
    rw [← hja]
    exact hij
  subst hai
  rw [hf] at hmatch
  simp [h5] at hmatch

theorem outbox_attempts_invariant_witness :
    (∀ i ∈ [(⟨0, 0⟩ : Mpc.OutboxItem)], i.attempts ≤ 5) ∧
    (∀ (f : Mpc.OutboxItem → Mpc.DispatchOutcome) (i : Mpc.OutboxItem),
      i ∈ [(⟨0, 0⟩ : Mpc.OutboxItem)] → f i = .failed → 5 ≤ i.attempts →
      ∀ j ∈ Mpc.dispatchStep [(⟨0, 0⟩ : Mpc.OutboxItem)] f, j.id ≠ i.id) :=
  outbox_attempts_invariant
    (Mpc.OutboxReach.enqueue [⟨0, 0⟩] Mpc.OutboxReach.init
      (by decide) (by decide) (by decide))
